import Mathlib

/-!
Verification of the mistql expression-language front end (lexer + parser).

The data model (`LexToken`, `ASTExpression`) is embedded from
`src/js/src/types.ts`.  The lexer and the recursive-descent parser are not
present in the repository source (only their type declarations and their test
suite `src/js/src/parser.spec.ts` are), so they are modelled from the
specification, section 4.  Recursion is expressed with an explicit fuel
parameter; the entry points supply fuel that is linear in the input size, which
is ample for the grammar's bounded call depth.
-/

/-- Scalar payload of a `value` lexer token: from `src/js/src/types.ts`,
`LexToken`'s `value` field for the `"value"` variant is
`string | number | boolean | null` (never an array or an object). -/
inductive LexValue where
  | str (s : String) : LexValue
  | num (q : Rat) : LexValue
  | bool (b : Bool) : LexValue
  | null : LexValue
deriving DecidableEq

/-- From `src/js/src/types.ts`: `LexToken` is a union of three variants,
tagged `"value"`, `"ref"`, `"special"`, each carrying a numeric `position`. -/
inductive LexToken where
  | value (v : LexValue) (position : Nat) : LexToken
  | ref (v : String) (position : Nat) : LexToken
  | special (v : String) (position : Nat) : LexToken
deriving DecidableEq

/-- Position of a token (uniform accessor over the three variants). -/
def LexToken.position : LexToken → Nat
  | .value _ p => p
  | .ref _ p => p
  | .special _ p => p

/-- Modelled from the spec: `LexError{character, position}` — an unrecognized
character; always fatal to the current parse call (spec section 7). -/
structure LexError where
  character : Char
  position : Nat
deriving DecidableEq

/-- Modelled from the spec: `ParseError{message, position}` — a structural
violation; always fatal, no partial AST is returned (spec section 7). -/
structure ParseError where
  message : String
  position : Nat
deriving DecidableEq

/-- Character classifier: decimal digits. -/
def isDigitChar (c : Char) : Bool := c.isDigit

/-- Character classifier: characters that may begin a bare identifier. -/
def isIdentStart (c : Char) : Bool := c.isAlpha || c = '_'

/-- Character classifier: characters that may continue a bare identifier
(alphanumeric/underscore runs, spec section 4.1). -/
def isIdentChar (c : Char) : Bool := c.isAlphanum || c = '_'

/-- Character classifier: the structural characters of the language
(spec section 4.1). -/
def isSpecialChar (c : Char) : Bool :=
  c = '(' || c = ')' || c = '[' || c = ']' || c = '\x7b' || c = '\x7d' ||
  c = '|' || c = '.' || c = ',' || c = ':'

/-- Character classifier: whitespace, skipped between tokens. -/
def isWhitespaceChar (c : Char) : Bool :=
  c = ' ' || c = '\t' || c = '\n' || c = '\r'

/-- Character classifier: anything other than a closing double quote
(used to scan string-literal bodies). -/
def notQuote (c : Char) : Bool := c != '"'

/-- Numeric value of a digit run. -/
def digitsToNat (ds : List Char) : Nat :=
  ds.foldl (fun acc c => 10 * acc + (c.toNat - '0'.toNat)) 0

/-- Exact rational value of an integer digit run with a fractional digit run
(empty fractional run for plain integers). -/
def ratOfDigits (ints fracs : List Char) : Rat :=
  mkRat (digitsToNat ints * 10 ^ fracs.length + digitsToNat fracs)
    (10 ^ fracs.length)

/-- Modelled from the spec: keyword classification for identifier runs —
`true`, `false`, `null` become value-literal tokens and take precedence over
bare reference atoms (spec section 4.1). -/
def identToken (s : String) (pos : Nat) : LexToken :=
  if s = "true" then .value (.bool true) pos
  else if s = "false" then .value (.bool false) pos
  else if s = "null" then .value (.null) pos
  else .ref s pos

/-- Modelled from the spec: the optional fractional part of a numeric
literal — a decimal point counts as part of the number exactly when a digit
follows it; returns the fractional digit run and the unconsumed rest. -/
def fracSplit : List Char → List Char × List Char
  | '.' :: d :: rest =>
    if isDigitChar d then
      (d :: List.takeWhile isDigitChar rest, List.dropWhile isDigitChar rest)
    else ([], '.' :: d :: rest)
  | other => ([], other)

/-- Modelled from the spec: the lexer core (spec section 4.1), missing from
`src/`.  Consumes characters from `cs` (absolute position `pos`), skipping
whitespace, producing value-literal, reference-atom and special-symbol tokens;
greedy maximal-run tokenization; fails on an unrecognized character or an
unterminated string.  `fuel` is a recursion budget: every step consumes at
least one character, so `cs.length + 1` fuel always suffices (the fuel-out
branch is unreachable from the entry point). -/
def lexFrom : Nat → List Char → Nat → Except LexError (List LexToken)
  | 0, _, _ => .error ⟨'\x00', 0⟩
  | _ + 1, [], _ => .ok []
  | fuel + 1, c :: cs, pos =>
    if isWhitespaceChar c then lexFrom fuel cs (pos + 1)
    else if isSpecialChar c then do
      let rest ← lexFrom fuel cs (pos + 1)
      .ok (.special (String.mk [c]) pos :: rest)
    else if isDigitChar c then
      let ds := c :: List.takeWhile isDigitChar cs
      let fsp := fracSplit (List.dropWhile isDigitChar cs)
      do
        let rest ← lexFrom fuel fsp.2
          (pos + ds.length + (if fsp.1.isEmpty then 0 else 1 + fsp.1.length))
        .ok (.value (.num (ratOfDigits ds fsp.1)) pos :: rest)
    else if c = '"' then
      let content := List.takeWhile notQuote cs
      match List.dropWhile notQuote cs with
      | _ :: rest₂ => do
        let rest ← lexFrom fuel rest₂ (pos + content.length + 2)
        .ok (.value (.str (String.mk content)) pos :: rest)
      | [] => .error ⟨'"', pos⟩
    else if c = '@' then do
      let rest ← lexFrom fuel cs (pos + 1)
      .ok (.ref "@" pos :: rest)
    else if isIdentStart c then do
      let name := c :: List.takeWhile isIdentChar cs
      let after := List.dropWhile isIdentChar cs
      let rest ← lexFrom fuel after (pos + name.length)
      .ok (identToken (String.mk name) pos :: rest)
    else .error ⟨c, pos⟩

/-- Modelled from the spec: `tokenize(source) -> ordered sequence of Token`
(spec section 4.1); the lexer entry point, missing from `src/`. -/
def tokenize (source : String) : Except LexError (List LexToken) :=
  lexFrom (source.data.length + 1) source.data 0

mutual
/-- AST node: the four-case tagged variant of `src/js/src/types.ts`
(`ASTExpression` = application | reference | pipeline | literal).  The
reference node carries `path : List String` — the shape exercised by the test
suite and mandated by spec sections 3 and 9 (the `ref : string` field of the
declared `ASTReferenceExpression` is the legacy/unused form, per spec
section 9). -/
inductive ASTExpression where
  | literal (v : ASTLiteralValue) : ASTExpression
  | reference (path : List String) : ASTExpression
  | application (function : ASTExpression) (arguments : List ASTExpression) :
      ASTExpression
  | pipeline (stages : List ASTExpression) : ASTExpression

/-- Literal payload with its `valueType` tag, from `src/js/src/types.ts`
(`ASTLiteralExpression`: string, number, boolean, array, null, object). -/
inductive ASTLiteralValue where
  | str (s : String) : ASTLiteralValue
  | num (q : Rat) : ASTLiteralValue
  | bool (b : Bool) : ASTLiteralValue
  | null : ASTLiteralValue
  | arr (elements : List ASTExpression) : ASTLiteralValue
  | obj (entries : List (String × ASTExpression)) : ASTLiteralValue
end

/-- Kind tag of an AST node, mirroring the `type` discriminator of
`src/js/src/types.ts`. -/
def nodeKind : ASTExpression → String
  | .literal _ => "literal"
  | .reference _ => "reference"
  | .application _ _ => "application"
  | .pipeline _ => "pipeline"

/-- AST node built from a scalar value token. -/
def literalOfValue : LexValue → ASTExpression
  | .str s => .literal (.str s)
  | .num q => .literal (.num q)
  | .bool b => .literal (.bool b)
  | .null => .literal (.null)

/-- Token test: does this token begin a Primary (value literal, reference
atom, or an opening `(`, `[`, `\x7b`)?  Spec section 4.2, grammar level 1. -/
def startsPrimaryTok : LexToken → Bool
  | .value _ _ => true
  | .ref _ _ => true
  | .special v _ => v = "(" || v = "[" || v = "\x7b"

/-- List form of `startsPrimaryTok`: the head token begins a Primary. -/
def startsPrimaryL : List LexToken → Bool
  | [] => false
  | t :: _ => startsPrimaryTok t

/-- Token test: the pipe special symbol. -/
def isPipeTok : LexToken → Bool
  | .special v _ => v = "|"
  | _ => false

/-- Token test: the dot special symbol. -/
def isDotTok : LexToken → Bool
  | .special v _ => v = "."
  | _ => false

/-- Internal parse error used only on fuel exhaustion; unreachable from the
entry points, whose fuel is linear in the token count. -/
def fuelError : ParseError := ⟨"internal: recursion budget exhausted", 0⟩

/-- Position to report for an unexpected end of input. -/
def endPos : List LexToken → Nat
  | [] => 0
  | t :: _ => t.position

mutual
/-- Modelled from the spec: grammar level 3, Pipeline (spec section 4.2) —
one or more Application-level expressions separated by `|`; two or more
stages build a `pipeline` node, a single stage is yielded unchanged. -/
def parsePipeline :
    Nat → List LexToken → Except ParseError (ASTExpression × List LexToken)
  | 0, _ => .error fuelError
  | fuel + 1, toks => do
    let (first, rest) ← parseApplication fuel toks
    let (more, rest₂) ← parsePipeTail fuel rest
    .ok (if more.isEmpty then first else .pipeline (first :: more), rest₂)

/-- Modelled from the spec: the Pipeline stage loop — while the next token is
`|`, consume it and parse one further Application-level stage. -/
def parsePipeTail :
    Nat → List LexToken → Except ParseError (List ASTExpression × List LexToken)
  | 0, _ => .error fuelError
  | fuel + 1, toks =>
    match toks with
    | .special "|" _ :: rest => do
      let (stage, rest₂) ← parseApplication fuel rest
      let (more, rest₃) ← parsePipeTail fuel rest₂
      .ok (stage :: more, rest₃)
    | _ => .ok ([], toks)

/-- Modelled from the spec: grammar level 2, Application (spec section 4.2) —
a Primary followed by zero or more further Primaries; with at least one
argument an `application` node is built, otherwise the bare Primary stands. -/
def parseApplication :
    Nat → List LexToken → Except ParseError (ASTExpression × List LexToken)
  | 0, _ => .error fuelError
  | fuel + 1, toks => do
    let (fn, rest) ← parsePrimary fuel toks
    let (args, rest₂) ← parseArgs fuel rest
    .ok (if args.isEmpty then fn else .application fn args, rest₂)

/-- Modelled from the spec: the greedy argument loop — collect consecutive
Primaries until a token that cannot begin a Primary (`|`, a closing delimiter,
end of input). -/
def parseArgs :
    Nat → List LexToken → Except ParseError (List ASTExpression × List LexToken)
  | 0, _ => .error fuelError
  | fuel + 1, toks =>
    if startsPrimaryL toks then do
      let (a, rest) ← parsePrimary fuel toks
      let (as, rest₂) ← parseArgs fuel rest
      .ok (a :: as, rest₂)
    else .ok ([], toks)

/-- Modelled from the spec: grammar level 1, Primary (spec section 4.2) —
value literals, dotted reference paths, parenthesized pipelines (unwrapped,
never a node of their own), array literals and object literals. -/
def parsePrimary :
    Nat → List LexToken → Except ParseError (ASTExpression × List LexToken)
  | 0, _ => .error fuelError
  | fuel + 1, toks =>
    match toks with
    | .value v _ :: rest => .ok (literalOfValue v, rest)
    | .ref r _ :: rest => do
      let (segs, rest₂) ← parseRefPath fuel rest
      .ok (.reference (r :: segs), rest₂)
    | .special "(" p :: rest => do
      let (inner, rest₂) ← parsePipeline fuel rest
      match rest₂ with
      | .special ")" _ :: rest₃ => .ok (inner, rest₃)
      | t :: _ => .error ⟨"expected closing paren", t.position⟩
      | [] => .error ⟨"expected closing paren", p⟩
    | .special "[" _ :: rest =>
      (match rest with
      | .special "]" _ :: rest₂ => .ok (.literal (.arr []), rest₂)
      | _ => do
        let (e, rest₂) ← parsePipeline fuel rest
        let (es, rest₃) ← parseArrayRest fuel rest₂
        .ok (.literal (.arr (e :: es)), rest₃))
    | .special "\x7b" _ :: rest =>
      (match rest with
      | .special "\x7d" _ :: rest₂ => .ok (.literal (.obj []), rest₂)
      | _ => do
        let (kv, rest₂) ← parseObjectEntry fuel rest
        let (kvs, rest₃) ← parseObjectRest fuel rest₂
        .ok (.literal (.obj (kv :: kvs)), rest₃))
    | t :: _ => .error ⟨"unexpected token", t.position⟩
    | [] => .error ⟨"unexpected end of input", 0⟩

/-- Modelled from the spec: the greedy reference-path loop — while the next
token is `.`, a further reference atom must follow and extends the path; a
dangling trailing dot is a parse error. -/
def parseRefPath :
    Nat → List LexToken → Except ParseError (List String × List LexToken)
  | 0, _ => .error fuelError
  | fuel + 1, toks =>
    match toks with
    | .special "." p :: rest =>
      (match rest with
      | .ref r _ :: rest₂ => do
        let (segs, rest₃) ← parseRefPath fuel rest₂
        .ok (r :: segs, rest₃)
      | _ => .error ⟨"expected reference after dot", p⟩)
    | _ => .ok ([], toks)

/-- Modelled from the spec: the array-literal element loop after the first
element — `,` continues with one further expression, `]` closes, anything
else (or end of input) is an unterminated array literal. -/
def parseArrayRest :
    Nat → List LexToken → Except ParseError (List ASTExpression × List LexToken)
  | 0, _ => .error fuelError
  | fuel + 1, toks =>
    match toks with
    | .special "," _ :: rest => do
      let (e, rest₂) ← parsePipeline fuel rest
      let (es, rest₃) ← parseArrayRest fuel rest₂
      .ok (e :: es, rest₃)
    | .special "]" _ :: rest => .ok ([], rest)
    | t :: _ => .error ⟨"expected comma or closing bracket", t.position⟩
    | [] => .error ⟨"unterminated array literal", 0⟩

/-- Modelled from the spec: one string-key/expression pair of an object
literal (`"key" : expression`). -/
def parseObjectEntry :
    Nat → List LexToken →
    Except ParseError ((String × ASTExpression) × List LexToken)
  | 0, _ => .error fuelError
  | fuel + 1, toks =>
    match toks with
    | .value (.str k) _ :: .special ":" _ :: rest => do
      let (v, rest₂) ← parsePipeline fuel rest
      .ok ((k, v), rest₂)
    | t :: _ => .error ⟨"expected object entry", t.position⟩
    | [] => .error ⟨"unterminated object literal", 0⟩

/-- Modelled from the spec: the object-literal entry loop after the first
entry — `,` continues with one further entry, `\x7d` closes, anything else is
an unterminated object literal. -/
def parseObjectRest :
    Nat → List LexToken →
    Except ParseError (List (String × ASTExpression) × List LexToken)
  | 0, _ => .error fuelError
  | fuel + 1, toks =>
    match toks with
    | .special "," _ :: rest => do
      let (kv, rest₂) ← parseObjectEntry fuel rest
      let (kvs, rest₃) ← parseObjectRest fuel rest₂
      .ok (kv :: kvs, rest₃)
    | .special "\x7d" _ :: rest => .ok ([], rest)
    | t :: _ => .error ⟨"expected comma or closing brace", t.position⟩
    | [] => .error ⟨"unterminated object literal", 0⟩
end

/-- Fuel supplied by the parser entry point: five budget units per token plus
a constant margin, ample for the grammar's call depth (at most a small
constant number of nested rule activations per consumed token). -/
def parseFuel (toks : List LexToken) : Nat := 5 * toks.length + 10

/-- Modelled from the spec: `parse(tokens) -> AST root` (spec section 4.2) —
runs the top-level Pipeline rule and requires every token to be consumed;
leftover tokens are a `ParseError`. -/
def parseTokens (toks : List LexToken) : Except ParseError ASTExpression := do
  let (ast, rest) ← parsePipeline (parseFuel toks) toks
  match rest with
  | [] => .ok ast
  | t :: _ => .error ⟨"unexpected leftover tokens", t.position⟩

/-- Failure surfaced by the source-level entry points: either a `LexError` or
a `ParseError` (spec sections 6 and 7). -/
inductive ParseFailure where
  | lex (e : LexError) : ParseFailure
  | parse (e : ParseError) : ParseFailure
deriving DecidableEq

/-- Modelled from the spec: the result-variant entry point
`parse(source) -> success(AST) | failure(error)` (spec section 6); never
raises, surfaces failure as a value. -/
def parse (source : String) : Except ParseFailure ASTExpression :=
  match tokenize source with
  | .error e => .error (.lex e)
  | .ok toks => (parseTokens toks).mapError .parse

/-- Modelled from the spec: the throwing-variant entry point `parseOrThrow`
(spec section 6); identical error classification to `parse`, with failure
modelled as the error value that would be raised. -/
def parseOrThrow (source : String) : Except ParseFailure ASTExpression :=
  parse source

@[simp] theorem exc_ok_bind {ε α β : Type} (a : α) (k : α → Except ε β) :
    (Except.ok a >>= k) = k a := rfl

@[simp] theorem exc_err_bind {ε α β : Type} (e : ε) (k : α → Except ε β) :
    ((Except.error e : Except ε α) >>= k) = .error e := rfl

theorem parserMonoAll (fuel : Nat) :
    (∀ g toks r, fuel ≤ g → parsePipeline fuel toks = .ok r →
      parsePipeline g toks = .ok r) ∧
    (∀ g toks r, fuel ≤ g → parsePipeTail fuel toks = .ok r →
      parsePipeTail g toks = .ok r) ∧
    (∀ g toks r, fuel ≤ g → parseApplication fuel toks = .ok r →
      parseApplication g toks = .ok r) ∧
    (∀ g toks r, fuel ≤ g → parseArgs fuel toks = .ok r →
      parseArgs g toks = .ok r) ∧
    (∀ g toks r, fuel ≤ g → parsePrimary fuel toks = .ok r →
      parsePrimary g toks = .ok r) ∧
    (∀ g toks r, fuel ≤ g → parseRefPath fuel toks = .ok r →
      parseRefPath g toks = .ok r) ∧
    (∀ g toks r, fuel ≤ g → parseArrayRest fuel toks = .ok r →
      parseArrayRest g toks = .ok r) ∧
    (∀ g toks r, fuel ≤ g → parseObjectEntry fuel toks = .ok r →
      parseObjectEntry g toks = .ok r) ∧
    (∀ g toks r, fuel ≤ g → parseObjectRest fuel toks = .ok r →
      parseObjectRest g toks = .ok r) := by
  induction fuel with
  | zero =>
    refine ⟨?_, ?_, ?_, ?_, ?_, ?_, ?_, ?_, ?_⟩ <;>
      · intro g toks r hle h
        simp [parsePipeline, parsePipeTail, parseApplication, parseArgs,
          parsePrimary, parseRefPath, parseArrayRest, parseObjectEntry,
          parseObjectRest] at h
  | succ n ih =>
    obtain ⟨ihPipe, ihTail, ihApp, ihArgs, ihPrim, ihPath, ihArr, ihObjE,
      ihObjR⟩ := ih
    refine ⟨?_, ?_, ?_, ?_, ?_, ?_, ?_, ?_, ?_⟩
    -- parsePipeline
    · intro g toks r hle h
      obtain ⟨g', rfl⟩ : ∃ g', g = g' + 1 := ⟨g - 1, by omega⟩
      have hg : n ≤ g' := by omega
      simp only [parsePipeline] at h ⊢
      cases hA : parseApplication n toks with
      | error e => rw [hA] at h; simp at h
      | ok pr =>
        obtain ⟨first, rest⟩ := pr
        rw [hA] at h
        rw [ihApp _ _ _ hg hA]
        simp only [exc_ok_bind] at h ⊢
        cases hT : parsePipeTail n rest with
        | error e => rw [hT] at h; simp at h
        | ok pr2 =>
          obtain ⟨more, rest₂⟩ := pr2
          rw [hT] at h
          rw [ihTail _ _ _ hg hT]
          simpa using h
    -- parsePipeTail
    · intro g toks r hle h
      obtain ⟨g', rfl⟩ : ∃ g', g = g' + 1 := ⟨g - 1, by omega⟩
      have hg : n ≤ g' := by omega
      simp only [parsePipeTail] at h ⊢
      split at h
      next p rest =>
        cases hA : parseApplication n rest with
        | error e => rw [hA] at h; simp at h
        | ok pr =>
          obtain ⟨stage, rest₂⟩ := pr
          rw [hA] at h
          rw [ihApp _ _ _ hg hA]
          simp only [exc_ok_bind] at h ⊢
          cases hT : parsePipeTail n rest₂ with
          | error e => rw [hT] at h; simp at h
          | ok pr2 =>
            obtain ⟨more, rest₃⟩ := pr2
            rw [hT] at h
            rw [ihTail _ _ _ hg hT]
            simpa using h
      next hne => exact h
    -- parseApplication
    · intro g toks r hle h
      obtain ⟨g', rfl⟩ : ∃ g', g = g' + 1 := ⟨g - 1, by omega⟩
      have hg : n ≤ g' := by omega
      simp only [parseApplication] at h ⊢
      cases hP : parsePrimary n toks with
      | error e => rw [hP] at h; simp at h
      | ok pr =>
        obtain ⟨fn, rest⟩ := pr
        rw [hP] at h
        rw [ihPrim _ _ _ hg hP]
        simp only [exc_ok_bind] at h ⊢
        cases hA : parseArgs n rest with
        | error e => rw [hA] at h; simp at h
        | ok pr2 =>
          obtain ⟨args, rest₂⟩ := pr2
          rw [hA] at h
          rw [ihArgs _ _ _ hg hA]
          simpa using h
    -- parseArgs
    · intro g toks r hle h
      obtain ⟨g', rfl⟩ : ∃ g', g = g' + 1 := ⟨g - 1, by omega⟩
      have hg : n ≤ g' := by omega
      simp only [parseArgs] at h ⊢
      by_cases hc : startsPrimaryL toks = true
      · simp only [hc, if_true] at h ⊢
        cases hP : parsePrimary n toks with
        | error e => rw [hP] at h; simp at h
        | ok pr =>
          obtain ⟨a, rest⟩ := pr
          rw [hP] at h
          rw [ihPrim _ _ _ hg hP]
          simp only [exc_ok_bind] at h ⊢
          cases hA : parseArgs n rest with
          | error e => rw [hA] at h; simp at h
          | ok pr2 =>
            obtain ⟨as, rest₂⟩ := pr2
            rw [hA] at h
            rw [ihArgs _ _ _ hg hA]
            simpa using h
      · simp only [hc, if_false] at h ⊢
        exact h
    -- parsePrimary
    · intro g toks r hle h
      obtain ⟨g', rfl⟩ : ∃ g', g = g' + 1 := ⟨g - 1, by omega⟩
      have hg : n ≤ g' := by omega
      simp only [parsePrimary] at h ⊢
      split at h
      next v rest => exact h
      next rf rest =>
        cases hR : parseRefPath n rest with
        | error e => rw [hR] at h; simp at h
        | ok pr =>
          obtain ⟨segs, rest₂⟩ := pr
          rw [hR] at h
          rw [ihPath _ _ _ hg hR]
          simpa using h
      next p rest =>
        cases hI : parsePipeline n rest with
        | error e => rw [hI] at h; simp at h
        | ok pr =>
          obtain ⟨inner, rest₂⟩ := pr
          rw [hI] at h
          rw [ihPipe _ _ _ hg hI]
          simp only [exc_ok_bind] at h ⊢
          exact h
      next p rest =>
        split at h
        next rest₂ => exact h
        next hne =>
          cases hI : parsePipeline n rest with
          | error e => rw [hI] at h; simp at h
          | ok pr =>
            obtain ⟨e, rest₂⟩ := pr
            rw [hI] at h
            rw [ihPipe _ _ _ hg hI]
            simp only [exc_ok_bind] at h ⊢
            cases hA : parseArrayRest n rest₂ with
            | error e2 => rw [hA] at h; simp at h
            | ok pr2 =>
              obtain ⟨es, rest₃⟩ := pr2
              rw [hA] at h
              rw [ihArr _ _ _ hg hA]
              simpa using h
      next p rest =>
        split at h
        next rest₂ => exact h
        next hne =>
          cases hE : parseObjectEntry n rest with
          | error e => rw [hE] at h; simp at h
          | ok pr =>
            obtain ⟨kv, rest₂⟩ := pr
            rw [hE] at h
            rw [ihObjE _ _ _ hg hE]
            simp only [exc_ok_bind] at h ⊢
            cases hO : parseObjectRest n rest₂ with
            | error e2 => rw [hO] at h; simp at h
            | ok pr2 =>
              obtain ⟨kvs, rest₃⟩ := pr2
              rw [hO] at h
              rw [ihObjR _ _ _ hg hO]
              simpa using h
      next t rest hne => exact h
      next => exact h
    -- parseRefPath
    · intro g toks r hle h
      obtain ⟨g', rfl⟩ : ∃ g', g = g' + 1 := ⟨g - 1, by omega⟩
      have hg : n ≤ g' := by omega
      simp only [parseRefPath] at h ⊢
      split at h
      next p rest =>
        split at h
        next rf rest₂ =>
          cases hR : parseRefPath n rest₂ with
          | error e => rw [hR] at h; simp at h
          | ok pr =>
            obtain ⟨segs, rest₃⟩ := pr
            rw [hR] at h
            rw [ihPath _ _ _ hg hR]
            simpa using h
        next hne => exact h
      next hne => exact h
    -- parseArrayRest
    · intro g toks r hle h
      obtain ⟨g', rfl⟩ : ∃ g', g = g' + 1 := ⟨g - 1, by omega⟩
      have hg : n ≤ g' := by omega
      simp only [parseArrayRest] at h ⊢
      split at h
      next p rest =>
        cases hI : parsePipeline n rest with
        | error e => rw [hI] at h; simp at h
        | ok pr =>
          obtain ⟨e, rest₂⟩ := pr
          rw [hI] at h
          rw [ihPipe _ _ _ hg hI]
          simp only [exc_ok_bind] at h ⊢
          cases hA : parseArrayRest n rest₂ with
          | error e2 => rw [hA] at h; simp at h
          | ok pr2 =>
            obtain ⟨es, rest₃⟩ := pr2
            rw [hA] at h
            rw [ihArr _ _ _ hg hA]
            simpa using h
      next rest => exact h
      next t rest hne => exact h
      next => exact h
    -- parseObjectEntry
    · intro g toks r hle h
      obtain ⟨g', rfl⟩ : ∃ g', g = g' + 1 := ⟨g - 1, by omega⟩
      have hg : n ≤ g' := by omega
      simp only [parseObjectEntry] at h ⊢
      split at h
      next k rest =>
        cases hI : parsePipeline n rest with
        | error e => rw [hI] at h; simp at h
        | ok pr =>
          obtain ⟨v, rest₂⟩ := pr
          rw [hI] at h
          rw [ihPipe _ _ _ hg hI]
          simpa using h
      next t rest hne => exact h
      next => exact h
    -- parseObjectRest
    · intro g toks r hle h
      obtain ⟨g', rfl⟩ : ∃ g', g = g' + 1 := ⟨g - 1, by omega⟩
      have hg : n ≤ g' := by omega
      simp only [parseObjectRest] at h ⊢
      split at h
      next p rest =>
        cases hE : parseObjectEntry n rest with
        | error e => rw [hE] at h; simp at h
        | ok pr =>
          obtain ⟨kv, rest₂⟩ := pr
          rw [hE] at h
          rw [ihObjE _ _ _ hg hE]
          simp only [exc_ok_bind] at h ⊢
          cases hO : parseObjectRest n rest₂ with
          | error e2 => rw [hO] at h; simp at h
          | ok pr2 =>
            obtain ⟨kvs, rest₃⟩ := pr2
            rw [hO] at h
            rw [ihObjR _ _ _ hg hO]
            simpa using h
      next rest => exact h
      next t rest hne => exact h
      next => exact h

theorem parserSuffixAll (fuel : Nat) :
    (∀ toks a rem, parsePipeline fuel toks = .ok (a, rem) → rem <:+ toks) ∧
    (∀ toks a rem, parsePipeTail fuel toks = .ok (a, rem) → rem <:+ toks) ∧
    (∀ toks a rem, parseApplication fuel toks = .ok (a, rem) → rem <:+ toks) ∧
    (∀ toks a rem, parseArgs fuel toks = .ok (a, rem) → rem <:+ toks) ∧
    (∀ toks a rem, parsePrimary fuel toks = .ok (a, rem) → rem <:+ toks) ∧
    (∀ toks a rem, parseRefPath fuel toks = .ok (a, rem) → rem <:+ toks) ∧
    (∀ toks a rem, parseArrayRest fuel toks = .ok (a, rem) → rem <:+ toks) ∧
    (∀ toks a rem, parseObjectEntry fuel toks = .ok (a, rem) → rem <:+ toks) ∧
    (∀ toks a rem, parseObjectRest fuel toks = .ok (a, rem) → rem <:+ toks) := by
  induction fuel with
  | zero =>
    refine ⟨?_, ?_, ?_, ?_, ?_, ?_, ?_, ?_, ?_⟩ <;>
      · intro toks a rem h
        simp [parsePipeline, parsePipeTail, parseApplication, parseArgs,
          parsePrimary, parseRefPath, parseArrayRest, parseObjectEntry,
          parseObjectRest] at h
  | succ n ih =>
    obtain ⟨ihPipe, ihTail, ihApp, ihArgs, ihPrim, ihPath, ihArr, ihObjE,
      ihObjR⟩ := ih
    refine ⟨?_, ?_, ?_, ?_, ?_, ?_, ?_, ?_, ?_⟩
    -- parsePipeline
    · intro toks a rem h
      simp only [parsePipeline] at h
      cases hA : parseApplication n toks with
      | error e => rw [hA] at h; simp at h
      | ok pr =>
        obtain ⟨first, rest⟩ := pr
        rw [hA] at h
        simp only [exc_ok_bind] at h
        cases hT : parsePipeTail n rest with
        | error e => rw [hT] at h; simp at h
        | ok pr2 =>
          obtain ⟨more, rest₂⟩ := pr2
          rw [hT] at h
          simp only [exc_ok_bind] at h
          obtain ⟨-, rfl⟩ : _ ∧ rest₂ = rem := by
            have := h; simp at this; exact ⟨trivial, this.2⟩
          exact (ihTail _ _ _ hT).trans (ihApp _ _ _ hA)
    -- parsePipeTail
    · intro toks a rem h
      simp only [parsePipeTail] at h
      split at h
      next p rest =>
        cases hA : parseApplication n rest with
        | error e => rw [hA] at h; simp at h
        | ok pr =>
          obtain ⟨stage, rest₂⟩ := pr
          rw [hA] at h
          simp only [exc_ok_bind] at h
          cases hT : parsePipeTail n rest₂ with
          | error e => rw [hT] at h; simp at h
          | ok pr2 =>
            obtain ⟨more, rest₃⟩ := pr2
            rw [hT] at h
            simp only [exc_ok_bind] at h
            obtain ⟨-, rfl⟩ : _ ∧ rest₃ = rem := by
              have := h; simp at this; exact ⟨trivial, this.2⟩
            exact (((ihTail _ _ _ hT).trans (ihApp _ _ _ hA)).trans
              (List.suffix_cons _ _))
      next hne =>
        obtain ⟨-, rfl⟩ : _ ∧ toks = rem := by
          have := h; simp at this; exact ⟨trivial, this.2⟩
        exact List.suffix_rfl
    -- parseApplication
    · intro toks a rem h
      simp only [parseApplication] at h
      cases hP : parsePrimary n toks with
      | error e => rw [hP] at h; simp at h
      | ok pr =>
        obtain ⟨fn, rest⟩ := pr
        rw [hP] at h
        simp only [exc_ok_bind] at h
        cases hA : parseArgs n rest with
        | error e => rw [hA] at h; simp at h
        | ok pr2 =>
          obtain ⟨args, rest₂⟩ := pr2
          rw [hA] at h
          simp only [exc_ok_bind] at h
          obtain ⟨-, rfl⟩ : _ ∧ rest₂ = rem := by
            have := h; simp at this; exact ⟨trivial, this.2⟩
          exact (ihArgs _ _ _ hA).trans (ihPrim _ _ _ hP)
    -- parseArgs
    · intro toks a rem h
      simp only [parseArgs] at h
      by_cases hc : startsPrimaryL toks = true
      · simp only [hc, if_true] at h
        cases hP : parsePrimary n toks with
        | error e => rw [hP] at h; simp at h
        | ok pr =>
          obtain ⟨a1, rest⟩ := pr
          rw [hP] at h
          simp only [exc_ok_bind] at h
          cases hA : parseArgs n rest with
          | error e => rw [hA] at h; simp at h
          | ok pr2 =>
            obtain ⟨as, rest₂⟩ := pr2
            rw [hA] at h
            simp only [exc_ok_bind] at h
            obtain ⟨-, rfl⟩ : _ ∧ rest₂ = rem := by
              have := h; simp at this; exact ⟨trivial, this.2⟩
            exact (ihArgs _ _ _ hA).trans (ihPrim _ _ _ hP)
      · simp only [hc, if_false] at h
        obtain ⟨-, rfl⟩ : _ ∧ toks = rem := by
          have := h; simp at this; exact ⟨trivial, this.2⟩
        exact List.suffix_rfl
    -- parsePrimary
    · intro toks a rem h
      simp only [parsePrimary] at h
      split at h
      next v rest =>
        obtain ⟨-, rfl⟩ : _ ∧ rest = rem := by
          have := h; simp at this; exact ⟨trivial, this.2⟩
        exact List.suffix_cons _ _
      next rf rest =>
        cases hR : parseRefPath n rest with
        | error e => rw [hR] at h; simp at h
        | ok pr =>
          obtain ⟨segs, rest₂⟩ := pr
          rw [hR] at h
          simp only [exc_ok_bind] at h
          obtain ⟨-, rfl⟩ : _ ∧ rest₂ = rem := by
            have := h; simp at this; exact ⟨trivial, this.2⟩
          exact (ihPath _ _ _ hR).trans (List.suffix_cons _ _)
      next p rest =>
        cases hI : parsePipeline n rest with
        | error e => rw [hI] at h; simp at h
        | ok pr =>
          obtain ⟨inner, rest₂⟩ := pr
          rw [hI] at h
          simp only [exc_ok_bind] at h
          split at h
          next rest₃ =>
            obtain ⟨-, rfl⟩ : _ ∧ rest₃ = rem := by
              have := h; simp at this; exact ⟨trivial, this.2⟩
            exact ((List.suffix_cons _ _).trans (ihPipe _ _ _ hI)).trans
              (List.suffix_cons _ _)
          next t rest₃ hne => simp at h
          next => simp at h
      next p rest =>
        split at h
        next rest₂ =>
          obtain ⟨-, rfl⟩ : _ ∧ rest₂ = rem := by
            have := h; simp at this; exact ⟨trivial, this.2⟩
          exact (List.suffix_cons _ _).trans (List.suffix_cons _ _)
        next hne =>
          cases hI : parsePipeline n rest with
          | error e => rw [hI] at h; simp at h
          | ok pr =>
            obtain ⟨e1, rest₂⟩ := pr
            rw [hI] at h
            simp only [exc_ok_bind] at h
            cases hA : parseArrayRest n rest₂ with
            | error e2 => rw [hA] at h; simp at h
            | ok pr2 =>
              obtain ⟨es, rest₃⟩ := pr2
              rw [hA] at h
              simp only [exc_ok_bind] at h
              obtain ⟨-, rfl⟩ : _ ∧ rest₃ = rem := by
                have := h; simp at this; exact ⟨trivial, this.2⟩
              exact (((ihArr _ _ _ hA).trans (ihPipe _ _ _ hI)).trans
                (List.suffix_cons _ _))
      next p rest =>
        split at h
        next rest₂ =>
          obtain ⟨-, rfl⟩ : _ ∧ rest₂ = rem := by
            have := h; simp at this; exact ⟨trivial, this.2⟩
          exact (List.suffix_cons _ _).trans (List.suffix_cons _ _)
        next hne =>
          cases hE : parseObjectEntry n rest with
          | error e => rw [hE] at h; simp at h
          | ok pr =>
            obtain ⟨kv, rest₂⟩ := pr
            rw [hE] at h
            simp only [exc_ok_bind] at h
            cases hO : parseObjectRest n rest₂ with
            | error e2 => rw [hO] at h; simp at h
            | ok pr2 =>
              obtain ⟨kvs, rest₃⟩ := pr2
              rw [hO] at h
              simp only [exc_ok_bind] at h
              obtain ⟨-, rfl⟩ : _ ∧ rest₃ = rem := by
                have := h; simp at this; exact ⟨trivial, this.2⟩
              exact (((ihObjR _ _ _ hO).trans (ihObjE _ _ _ hE)).trans
                (List.suffix_cons _ _))
      next t rest hne => simp at h
      next => simp at h
    -- parseRefPath
    · intro toks a rem h
      simp only [parseRefPath] at h
      split at h
      next p rest =>
        split at h
        next rf rest₂ =>
          cases hR : parseRefPath n rest₂ with
          | error e => rw [hR] at h; simp at h
          | ok pr =>
            obtain ⟨segs, rest₃⟩ := pr
            rw [hR] at h
            simp only [exc_ok_bind] at h
            obtain ⟨-, rfl⟩ : _ ∧ rest₃ = rem := by
              have := h; simp at this; exact ⟨trivial, this.2⟩
            exact ((ihPath _ _ _ hR).trans (List.suffix_cons _ _)).trans
              (List.suffix_cons _ _)
        next hne => simp at h
      next hne =>
        obtain ⟨-, rfl⟩ : _ ∧ toks = rem := by
          have := h; simp at this; exact ⟨trivial, this.2⟩
        exact List.suffix_rfl
    -- parseArrayRest
    · intro toks a rem h
      simp only [parseArrayRest] at h
      split at h
      next p rest =>
        cases hI : parsePipeline n rest with
        | error e => rw [hI] at h; simp at h
        | ok pr =>
          obtain ⟨e1, rest₂⟩ := pr
          rw [hI] at h
          simp only [exc_ok_bind] at h
          cases hA : parseArrayRest n rest₂ with
          | error e2 => rw [hA] at h; simp at h
          | ok pr2 =>
            obtain ⟨es, rest₃⟩ := pr2
            rw [hA] at h
            simp only [exc_ok_bind] at h
            obtain ⟨-, rfl⟩ : _ ∧ rest₃ = rem := by
              have := h; simp at this; exact ⟨trivial, this.2⟩
            exact (((ihArr _ _ _ hA).trans (ihPipe _ _ _ hI)).trans
              (List.suffix_cons _ _))
      next rest =>
        obtain ⟨-, rfl⟩ : _ ∧ rest = rem := by
          have := h; simp at this; exact ⟨trivial, this.2⟩
        exact List.suffix_cons _ _
      next t rest hne => simp at h
      next => simp at h
    -- parseObjectEntry
    · intro toks a rem h
      simp only [parseObjectEntry] at h
      split at h
      next k rest =>
        cases hI : parsePipeline n rest with
        | error e => rw [hI] at h; simp at h
        | ok pr =>
          obtain ⟨v, rest₂⟩ := pr
          rw [hI] at h
          simp only [exc_ok_bind] at h
          obtain ⟨-, rfl⟩ : _ ∧ rest₂ = rem := by
            have := h; simp at this; exact ⟨trivial, this.2⟩
          exact ((ihPipe _ _ _ hI).trans (List.suffix_cons _ _)).trans
            (List.suffix_cons _ _)
      next t rest hne => simp at h
      next => simp at h
    -- parseObjectRest
    · intro toks a rem h
      simp only [parseObjectRest] at h
      split at h
      next p rest =>
        cases hE : parseObjectEntry n rest with
        | error e => rw [hE] at h; simp at h
        | ok pr =>
          obtain ⟨kv, rest₂⟩ := pr
          rw [hE] at h
          simp only [exc_ok_bind] at h
          cases hO : parseObjectRest n rest₂ with
          | error e2 => rw [hO] at h; simp at h
          | ok pr2 =>
            obtain ⟨kvs, rest₃⟩ := pr2
            rw [hO] at h
            simp only [exc_ok_bind] at h
            obtain ⟨-, rfl⟩ : _ ∧ rest₃ = rem := by
              have := h; simp at this; exact ⟨trivial, this.2⟩
            exact (((ihObjR _ _ _ hO).trans (ihObjE _ _ _ hE)).trans
              (List.suffix_cons _ _))
      next rest =>
        obtain ⟨-, rfl⟩ : _ ∧ rest = rem := by
          have := h; simp at this; exact ⟨trivial, this.2⟩
        exact List.suffix_cons _ _
      next t rest hne => simp at h
      next => simp at h

/-- Head test: the next token is a dot. -/
def headIsDot : List LexToken → Bool
  | [] => false
  | t :: _ => isDotTok t

/-- Head test: the next token is a pipe. -/
def headIsPipe : List LexToken → Bool
  | [] => false
  | t :: _ => isPipeTok t

/-- Tokens that may follow a complete Primary without extending it. -/
def extPrimOk (ext : List LexToken) : Bool := !headIsDot ext

/-- Tokens that may follow a complete Application without extending it. -/
def extAppOk (ext : List LexToken) : Bool :=
  !headIsDot ext && !startsPrimaryL ext

/-- Tokens that may follow a complete Pipeline without extending it. -/
def extPipeOk (ext : List LexToken) : Bool :=
  !headIsDot ext && !startsPrimaryL ext && !headIsPipe ext

theorem extPipeOk_appOk {ext : List LexToken} (h : extPipeOk ext = true) :
    extAppOk ext = true := by
  simp [extPipeOk, extAppOk] at h ⊢; exact ⟨h.1.1, h.1.2⟩

theorem extAppOk_primOk {ext : List LexToken} (h : extAppOk ext = true) :
    extPrimOk ext = true := by
  simp [extAppOk, extPrimOk] at h ⊢; exact h.1

theorem extPipeOk_noPipe {ext : List LexToken} (h : extPipeOk ext = true) :
    headIsPipe ext = false := by
  simp [extPipeOk] at h; exact h.2

theorem extAppOk_noPrim {ext : List LexToken} (h : extAppOk ext = true) :
    startsPrimaryL ext = false := by
  simp [extAppOk] at h; exact h.2

theorem extPrimOk_noDot {ext : List LexToken} (h : extPrimOk ext = true) :
    headIsDot ext = false := by
  simp [extPrimOk] at h; exact h

theorem parsePipeTail_noPipe (n : Nat) (ts : List LexToken)
    (h : headIsPipe ts = false) : parsePipeTail (n + 1) ts = .ok ([], ts) := by
  simp only [parsePipeTail]
  split
  next p rest => simp [headIsPipe, isPipeTok] at h
  next => rfl

theorem parseArgs_noPrim (n : Nat) (ts : List LexToken)
    (h : startsPrimaryL ts = false) : parseArgs (n + 1) ts = .ok ([], ts) := by
  simp [parseArgs, h]

theorem parseRefPath_noDot (n : Nat) (ts : List LexToken)
    (h : headIsDot ts = false) : parseRefPath (n + 1) ts = .ok ([], ts) := by
  simp only [parseRefPath]
  split
  next p rest => simp [headIsDot, isDotTok] at h
  next => rfl

theorem parsePrimary_nil (f : Nat) (r : ASTExpression × List LexToken) :
    parsePrimary f [] ≠ .ok r := by
  cases f <;> simp [parsePrimary]

theorem parseApplication_nil (f : Nat) (r : ASTExpression × List LexToken) :
    parseApplication f [] ≠ .ok r := by
  cases f with
  | zero => simp [parseApplication]
  | succ n =>
    intro h
    simp only [parseApplication] at h
    cases hP : parsePrimary n [] with
    | error e => rw [hP] at h; simp at h
    | ok pr => exact parsePrimary_nil n pr hP

theorem parsePipeline_nil (f : Nat) (r : ASTExpression × List LexToken) :
    parsePipeline f [] ≠ .ok r := by
  cases f with
  | zero => simp [parsePipeline]
  | succ n =>
    intro h
    simp only [parsePipeline] at h
    cases hA : parseApplication n [] with
    | error e => rw [hA] at h; simp at h
    | ok pr => exact parseApplication_nil n pr hA

theorem parseArrayRest_nil (f : Nat)
    (r : List ASTExpression × List LexToken) :
    parseArrayRest f [] ≠ .ok r := by
  cases f <;> simp [parseArrayRest]

theorem parseObjectEntry_nil (f : Nat)
    (r : (String × ASTExpression) × List LexToken) :
    parseObjectEntry f [] ≠ .ok r := by
  cases f <;> simp [parseObjectEntry]

theorem parseObjectRest_nil (f : Nat)
    (r : List (String × ASTExpression) × List LexToken) :
    parseObjectRest f [] ≠ .ok r := by
  cases f <;> simp [parseObjectRest]

theorem isPipeTok_shape {t : LexToken} (h : isPipeTok t = true) :
    ∃ p, t = .special "|" p := by
  cases t with
  | special v p =>
    simp [isPipeTok] at h
    exact ⟨p, by rw [h]⟩
  | value v p => simp [isPipeTok] at h
  | ref v p => simp [isPipeTok] at h

theorem isDotTok_shape {t : LexToken} (h : isDotTok t = true) :
    ∃ p, t = .special "." p := by
  cases t with
  | special v p =>
    simp [isDotTok] at h
    exact ⟨p, by rw [h]⟩
  | value v p => simp [isDotTok] at h
  | ref v p => simp [isDotTok] at h

theorem parsePipeline_suffix {f : Nat} {toks : List LexToken}
    {a : ASTExpression} {rem : List LexToken}
    (h : parsePipeline f toks = .ok (a, rem)) : rem <:+ toks :=
  (parserSuffixAll f).1 toks a rem h

theorem parsePipeTail_suffix {f : Nat} {toks : List LexToken}
    {a : List ASTExpression} {rem : List LexToken}
    (h : parsePipeTail f toks = .ok (a, rem)) : rem <:+ toks :=
  (parserSuffixAll f).2.1 toks a rem h

theorem parseArgs_suffix {f : Nat} {toks : List LexToken}
    {a : List ASTExpression} {rem : List LexToken}
    (h : parseArgs f toks = .ok (a, rem)) : rem <:+ toks :=
  (parserSuffixAll f).2.2.2.1 toks a rem h

theorem parserExtAll (ext : List LexToken) (fuel : Nat) :
    (∀ toks a rem, parsePipeline fuel toks = .ok (a, rem) →
      (rem = [] → extPipeOk ext = true) →
      parsePipeline fuel (toks ++ ext) = .ok (a, rem ++ ext)) ∧
    (∀ toks a rem, parsePipeTail fuel toks = .ok (a, rem) →
      (rem = [] → extPipeOk ext = true) →
      parsePipeTail fuel (toks ++ ext) = .ok (a, rem ++ ext)) ∧
    (∀ toks a rem, parseApplication fuel toks = .ok (a, rem) →
      (rem = [] → extAppOk ext = true) →
      parseApplication fuel (toks ++ ext) = .ok (a, rem ++ ext)) ∧
    (∀ toks a rem, parseArgs fuel toks = .ok (a, rem) →
      (rem = [] → extAppOk ext = true) →
      parseArgs fuel (toks ++ ext) = .ok (a, rem ++ ext)) ∧
    (∀ toks a rem, parsePrimary fuel toks = .ok (a, rem) →
      (rem = [] → extPrimOk ext = true) →
      parsePrimary fuel (toks ++ ext) = .ok (a, rem ++ ext)) ∧
    (∀ toks a rem, parseRefPath fuel toks = .ok (a, rem) →
      (rem = [] → extPrimOk ext = true) →
      parseRefPath fuel (toks ++ ext) = .ok (a, rem ++ ext)) ∧
    (∀ toks a rem, parseArrayRest fuel toks = .ok (a, rem) →
      parseArrayRest fuel (toks ++ ext) = .ok (a, rem ++ ext)) ∧
    (∀ toks a rem, parseObjectEntry fuel toks = .ok (a, rem) →
      (rem = [] → extPipeOk ext = true) →
      parseObjectEntry fuel (toks ++ ext) = .ok (a, rem ++ ext)) ∧
    (∀ toks a rem, parseObjectRest fuel toks = .ok (a, rem) →
      parseObjectRest fuel (toks ++ ext) = .ok (a, rem ++ ext)) := by
  induction fuel with
  | zero =>
    refine ⟨?_, ?_, ?_, ?_, ?_, ?_, ?_, ?_, ?_⟩ <;>
      · intro toks a rem h
        simp [parsePipeline, parsePipeTail, parseApplication, parseArgs,
          parsePrimary, parseRefPath, parseArrayRest, parseObjectEntry,
          parseObjectRest] at h
  | succ n ih =>
    obtain ⟨ihPipe, ihTail, ihApp, ihArgs, ihPrim, ihPath, ihArr, ihObjE,
      ihObjR⟩ := ih
    refine ⟨?_, ?_, ?_, ?_, ?_, ?_, ?_, ?_, ?_⟩
    -- parsePipeline
    · intro toks a rem h hstop
      simp only [parsePipeline] at h ⊢
      cases hA : parseApplication n toks with
      | error e => rw [hA] at h; simp at h
      | ok pr =>
        obtain ⟨first, rest⟩ := pr
        rw [hA] at h
        simp only [exc_ok_bind] at h
        cases hT : parsePipeTail n rest with
        | error e => rw [hT] at h; simp at h
        | ok pr2 =>
          obtain ⟨more, rest₂⟩ := pr2
          rw [hT] at h
          simp only [exc_ok_bind, Except.ok.injEq, Prod.mk.injEq] at h
          obtain ⟨rfl, rfl⟩ := h
          have hcA : rest = [] → extAppOk ext = true := by
            intro hr
            rw [hr] at hT
            have hrem : rest₂ = [] :=
              List.suffix_nil.mp (parsePipeTail_suffix hT)
            exact extPipeOk_appOk (hstop hrem)
          rw [ihApp _ _ _ hA hcA]
          simp only [exc_ok_bind]
          rw [ihTail _ _ _ hT hstop]
          simp only [exc_ok_bind]
    -- parsePipeTail
    · intro toks a rem h hstop
      simp only [parsePipeTail] at h ⊢
      split at h
      next p rest =>
        cases hA : parseApplication n rest with
        | error e => rw [hA] at h; simp at h
        | ok pr =>
          obtain ⟨stage, rest₂⟩ := pr
          rw [hA] at h
          simp only [exc_ok_bind] at h
          cases hT : parsePipeTail n rest₂ with
          | error e => rw [hT] at h; simp at h
          | ok pr2 =>
            obtain ⟨more, rest₃⟩ := pr2
            rw [hT] at h
            simp only [exc_ok_bind, Except.ok.injEq, Prod.mk.injEq] at h
            obtain ⟨rfl, rfl⟩ := h
            have hcA : rest₂ = [] → extAppOk ext = true := by
              intro hr
              rw [hr] at hT
              have hrem : rest₃ = [] :=
                List.suffix_nil.mp (parsePipeTail_suffix hT)
              exact extPipeOk_appOk (hstop hrem)
            simp only [List.cons_append]
            rw [ihApp _ _ _ hA hcA]
            simp only [exc_ok_bind]
            rw [ihTail _ _ _ hT hstop]
            simp only [exc_ok_bind]
      next hne =>
        simp only [Except.ok.injEq, Prod.mk.injEq] at h
        obtain ⟨rfl, rfl⟩ := h
        cases toks with
        | nil =>
          simp only [List.nil_append]
          exact parsePipeTail_noPipe n ext (extPipeOk_noPipe (hstop rfl))
        | cons t rest =>
          have hnp : isPipeTok t = false := by
            by_cases hp : isPipeTok t = true
            · obtain ⟨p, rfl⟩ := isPipeTok_shape hp
              exact absurd rfl (hne p rest)
            · simp at hp; exact hp
          have := parsePipeTail_noPipe n ((t :: rest) ++ ext)
            (by simp [headIsPipe, hnp])
          simpa using this
    -- parseApplication
    · intro toks a rem h hstop
      simp only [parseApplication] at h ⊢
      cases hP : parsePrimary n toks with
      | error e => rw [hP] at h; simp at h
      | ok pr =>
        obtain ⟨fn, rest⟩ := pr
        rw [hP] at h
        simp only [exc_ok_bind] at h
        cases hA : parseArgs n rest with
        | error e => rw [hA] at h; simp at h
        | ok pr2 =>
          obtain ⟨args, rest₂⟩ := pr2
          rw [hA] at h
          simp only [exc_ok_bind, Except.ok.injEq, Prod.mk.injEq] at h
          obtain ⟨rfl, rfl⟩ := h
          have hcP : rest = [] → extPrimOk ext = true := by
            intro hr
            rw [hr] at hA
            have hrem : rest₂ = [] :=
              List.suffix_nil.mp (parseArgs_suffix hA)
            exact extAppOk_primOk (hstop hrem)
          rw [ihPrim _ _ _ hP hcP]
          simp only [exc_ok_bind]
          rw [ihArgs _ _ _ hA hstop]
          simp only [exc_ok_bind]
    -- parseArgs
    · intro toks a rem h hstop
      simp only [parseArgs] at h ⊢
      by_cases hc : startsPrimaryL toks = true
      · simp only [hc, if_true] at h
        have hc2 : startsPrimaryL (toks ++ ext) = true := by
          cases toks with
          | nil => simp [startsPrimaryL] at hc
          | cons t rest => simpa [startsPrimaryL] using hc
        simp only [hc2, if_true]
        cases hP : parsePrimary n toks with
        | error e => rw [hP] at h; simp at h
        | ok pr =>
          obtain ⟨a1, rest⟩ := pr
          rw [hP] at h
          simp only [exc_ok_bind] at h
          cases hA : parseArgs n rest with
          | error e => rw [hA] at h; simp at h
          | ok pr2 =>
            obtain ⟨as, rest₂⟩ := pr2
            rw [hA] at h
            simp only [exc_ok_bind, Except.ok.injEq, Prod.mk.injEq] at h
            obtain ⟨rfl, rfl⟩ := h
            have hcP : rest = [] → extPrimOk ext = true := by
              intro hr
              rw [hr] at hA
              have hrem : rest₂ = [] :=
                List.suffix_nil.mp (parseArgs_suffix hA)
              exact extAppOk_primOk (hstop hrem)
            rw [ihPrim _ _ _ hP hcP]
            simp only [exc_ok_bind]
            rw [ihArgs _ _ _ hA hstop]
            simp only [exc_ok_bind]
      · simp only [hc, if_false, Except.ok.injEq, Prod.mk.injEq] at h
        obtain ⟨rfl, rfl⟩ := h
        cases toks with
        | nil =>
          rw [List.nil_append]
          have hc2 : ¬startsPrimaryL ext = true := by
            simp [extAppOk_noPrim (hstop rfl)]
          simp only [hc2, Bool.false_eq_true, if_false]
        | cons t rest =>
          have hc2 : ¬startsPrimaryL ((t :: rest) ++ ext) = true := by
            simp only [List.cons_append, startsPrimaryL] at hc ⊢
            exact hc
          simp only [hc2, Bool.false_eq_true, if_false]
    -- parsePrimary
    · intro toks a rem h hstop
      simp only [parsePrimary] at h ⊢
      split at h
      next v rest =>
        simp only [Except.ok.injEq, Prod.mk.injEq] at h
        obtain ⟨rfl, rfl⟩ := h
        simp only [List.cons_append]
      next rf rest =>
        cases hR : parseRefPath n rest with
        | error e => rw [hR] at h; simp at h
        | ok pr =>
          obtain ⟨segs, rest₂⟩ := pr
          rw [hR] at h
          simp only [exc_ok_bind, Except.ok.injEq, Prod.mk.injEq] at h
          obtain ⟨rfl, rfl⟩ := h
          simp only [List.cons_append]
          rw [ihPath _ _ _ hR hstop]
          simp only [exc_ok_bind]
      next p rest =>
        cases hI : parsePipeline n rest with
        | error e => rw [hI] at h; simp at h
        | ok pr =>
          obtain ⟨inner, rest₂⟩ := pr
          rw [hI] at h
          simp only [exc_ok_bind] at h
          split at h
          next q rest₃ =>
            simp only [Except.ok.injEq, Prod.mk.injEq] at h
            obtain ⟨rfl, rfl⟩ := h
            have hcI : LexToken.special ")" q :: rest₃ = [] →
                extPipeOk ext = true := by intro hx; simp at hx
            simp only [List.cons_append]
            rw [ihPipe _ _ _ hI hcI]
            simp only [exc_ok_bind, List.cons_append]
          next t rest₃ hne => simp at h
          next => simp at h
      next p rest =>
        split at h
        next q rest₂ =>
          simp only [Except.ok.injEq, Prod.mk.injEq] at h
          obtain ⟨rfl, rfl⟩ := h
          simp only [List.cons_append]
        next hne =>
          cases hI : parsePipeline n rest with
          | error e => rw [hI] at h; simp at h
          | ok pr =>
            obtain ⟨e1, rest₂⟩ := pr
            rw [hI] at h
            simp only [exc_ok_bind] at h
            cases hR : parseArrayRest n rest₂ with
            | error e2 => rw [hR] at h; simp at h
            | ok pr2 =>
              obtain ⟨es, rest₃⟩ := pr2
              rw [hR] at h
              simp only [exc_ok_bind, Except.ok.injEq, Prod.mk.injEq] at h
              obtain ⟨rfl, rfl⟩ := h
              have hcI : rest₂ = [] → extPipeOk ext = true := by
                intro hr
                rw [hr] at hR
                exact absurd hR (parseArrayRest_nil n _)
              cases rest with
              | nil => exact absurd hI (parsePipeline_nil n _)
              | cons t rest' =>
                simp only [List.cons_append]
                split
                next q rest₄ heq =>
                  exact absurd (by
                    injection heq with h1 h2
                    rw [h1]) (hne q rest')
                next hne2 =>
                  have hI2 := ihPipe _ _ _ hI hcI
                  simp only [List.cons_append] at hI2
                  rw [hI2]
                  simp only [exc_ok_bind]
                  rw [ihArr _ _ _ hR]
                  simp only [exc_ok_bind]
      next p rest =>
        split at h
        next q rest₂ =>
          simp only [Except.ok.injEq, Prod.mk.injEq] at h
          obtain ⟨rfl, rfl⟩ := h
          simp only [List.cons_append]
        next hne =>
          cases hE : parseObjectEntry n rest with
          | error e => rw [hE] at h; simp at h
          | ok pr =>
            obtain ⟨kv, rest₂⟩ := pr
            rw [hE] at h
            simp only [exc_ok_bind] at h
            cases hO : parseObjectRest n rest₂ with
            | error e2 => rw [hO] at h; simp at h
            | ok pr2 =>
              obtain ⟨kvs, rest₃⟩ := pr2
              rw [hO] at h
              simp only [exc_ok_bind, Except.ok.injEq, Prod.mk.injEq] at h
              obtain ⟨rfl, rfl⟩ := h
              have hcE : rest₂ = [] → extPipeOk ext = true := by
                intro hr
                rw [hr] at hO
                exact absurd hO (parseObjectRest_nil n _)
              cases rest with
              | nil => exact absurd hE (parseObjectEntry_nil n _)
              | cons t rest' =>
                simp only [List.cons_append]
                split
                next q rest₄ heq =>
                  exact absurd (by
                    injection heq with h1 h2
                    rw [h1]) (hne q rest')
                next hne2 =>
                  have hE2 := ihObjE _ _ _ hE hcE
                  simp only [List.cons_append] at hE2
                  rw [hE2]
                  simp only [exc_ok_bind]
                  rw [ihObjR _ _ _ hO]
                  simp only [exc_ok_bind]
      next t rest hne => simp at h
      next => simp at h
    -- parseRefPath
    · intro toks a rem h hstop
      simp only [parseRefPath] at h ⊢
      split at h
      next p rest =>
        split at h
        next rf rest₂ =>
          cases hR : parseRefPath n rest₂ with
          | error e => rw [hR] at h; simp at h
          | ok pr =>
            obtain ⟨segs, rest₃⟩ := pr
            rw [hR] at h
            simp only [exc_ok_bind, Except.ok.injEq, Prod.mk.injEq] at h
            obtain ⟨rfl, rfl⟩ := h
            simp only [List.cons_append]
            rw [ihPath _ _ _ hR hstop]
            simp only [exc_ok_bind]
        next hne => simp at h
      next hne =>
        simp only [Except.ok.injEq, Prod.mk.injEq] at h
        obtain ⟨rfl, rfl⟩ := h
        cases toks with
        | nil =>
          simp only [List.nil_append]
          exact parseRefPath_noDot n ext (extPrimOk_noDot (hstop rfl))
        | cons t rest =>
          have hnd : isDotTok t = false := by
            by_cases hd : isDotTok t = true
            · obtain ⟨p, rfl⟩ := isDotTok_shape hd
              exact absurd rfl (hne p rest)
            · simp at hd; exact hd
          have := parseRefPath_noDot n ((t :: rest) ++ ext)
            (by simp [headIsDot, hnd])
          simpa using this
    -- parseArrayRest
    · intro toks a rem h
      simp only [parseArrayRest] at h ⊢
      split at h
      next p rest =>
        cases hI : parsePipeline n rest with
        | error e => rw [hI] at h; simp at h
        | ok pr =>
          obtain ⟨e1, rest₂⟩ := pr
          rw [hI] at h
          simp only [exc_ok_bind] at h
          cases hR : parseArrayRest n rest₂ with
          | error e2 => rw [hR] at h; simp at h
          | ok pr2 =>
            obtain ⟨es, rest₃⟩ := pr2
            rw [hR] at h
            simp only [exc_ok_bind, Except.ok.injEq, Prod.mk.injEq] at h
            obtain ⟨rfl, rfl⟩ := h
            have hcI : rest₂ = [] → extPipeOk ext = true := by
              intro hr
              rw [hr] at hR
              exact absurd hR (parseArrayRest_nil n _)
            simp only [List.cons_append]
            rw [ihPipe _ _ _ hI hcI]
            simp only [exc_ok_bind]
            rw [ihArr _ _ _ hR]
            simp only [exc_ok_bind]
      next rest =>
        simp only [Except.ok.injEq, Prod.mk.injEq] at h
        obtain ⟨rfl, rfl⟩ := h
        simp only [List.cons_append]
      next t rest hne => simp at h
      next => simp at h
    -- parseObjectEntry
    · intro toks a rem h hstop
      simp only [parseObjectEntry] at h ⊢
      split at h
      next k q rest =>
        cases hI : parsePipeline n rest with
        | error e => rw [hI] at h; simp at h
        | ok pr =>
          obtain ⟨v, rest₂⟩ := pr
          rw [hI] at h
          simp only [exc_ok_bind, Except.ok.injEq, Prod.mk.injEq] at h
          obtain ⟨rfl, rfl⟩ := h
          simp only [List.cons_append]
          rw [ihPipe _ _ _ hI hstop]
          simp only [exc_ok_bind]
      next t rest hne => simp at h
      next => simp at h
    -- parseObjectRest
    · intro toks a rem h
      simp only [parseObjectRest] at h ⊢
      split at h
      next p rest =>
        cases hE : parseObjectEntry n rest with
        | error e => rw [hE] at h; simp at h
        | ok pr =>
          obtain ⟨kv, rest₂⟩ := pr
          rw [hE] at h
          simp only [exc_ok_bind] at h
          cases hO : parseObjectRest n rest₂ with
          | error e2 => rw [hO] at h; simp at h
          | ok pr2 =>
            obtain ⟨kvs, rest₃⟩ := pr2
            rw [hO] at h
            simp only [exc_ok_bind, Except.ok.injEq, Prod.mk.injEq] at h
            obtain ⟨rfl, rfl⟩ := h
            have hcE : rest₂ = [] → extPipeOk ext = true := by
              intro hr
              rw [hr] at hO
              exact absurd hO (parseObjectRest_nil n _)
            simp only [List.cons_append]
            rw [ihObjE _ _ _ hE hcE]
            simp only [exc_ok_bind]
            rw [ihObjR _ _ _ hO]
            simp only [exc_ok_bind]
      next rest =>
        simp only [Except.ok.injEq, Prod.mk.injEq] at h
        obtain ⟨rfl, rfl⟩ := h
        simp only [List.cons_append]
      next t rest hne => simp at h
      next => simp at h

/-- Shift a token's recorded position by `d`. -/
def shiftTok (d : Nat) : LexToken → LexToken
  | .value v p => .value v (p + d)
  | .ref v p => .ref v (p + d)
  | .special v p => .special v (p + d)

theorem startsPrimaryTok_shift (d : Nat) (t : LexToken) :
    startsPrimaryTok (shiftTok d t) = startsPrimaryTok t := by
  cases t <;> rfl

theorem startsPrimaryL_shift (d : Nat) (toks : List LexToken) :
    startsPrimaryL (toks.map (shiftTok d)) = startsPrimaryL toks := by
  cases toks with
  | nil => rfl
  | cons t rest => simp [startsPrimaryL, startsPrimaryTok_shift]

theorem headIsPipe_shift (d : Nat) (toks : List LexToken) :
    headIsPipe (toks.map (shiftTok d)) = headIsPipe toks := by
  cases toks with
  | nil => rfl
  | cons t rest => cases t <;> rfl

theorem headIsDot_shift (d : Nat) (toks : List LexToken) :
    headIsDot (toks.map (shiftTok d)) = headIsDot toks := by
  cases toks with
  | nil => rfl
  | cons t rest => cases t <;> rfl

theorem parserShiftAll (d : Nat) (fuel : Nat) :
    (∀ toks a rem, parsePipeline fuel toks = .ok (a, rem) →
      parsePipeline fuel (toks.map (shiftTok d)) =
        .ok (a, rem.map (shiftTok d))) ∧
    (∀ toks a rem, parsePipeTail fuel toks = .ok (a, rem) →
      parsePipeTail fuel (toks.map (shiftTok d)) =
        .ok (a, rem.map (shiftTok d))) ∧
    (∀ toks a rem, parseApplication fuel toks = .ok (a, rem) →
      parseApplication fuel (toks.map (shiftTok d)) =
        .ok (a, rem.map (shiftTok d))) ∧
    (∀ toks a rem, parseArgs fuel toks = .ok (a, rem) →
      parseArgs fuel (toks.map (shiftTok d)) =
        .ok (a, rem.map (shiftTok d))) ∧
    (∀ toks a rem, parsePrimary fuel toks = .ok (a, rem) →
      parsePrimary fuel (toks.map (shiftTok d)) =
        .ok (a, rem.map (shiftTok d))) ∧
    (∀ toks a rem, parseRefPath fuel toks = .ok (a, rem) →
      parseRefPath fuel (toks.map (shiftTok d)) =
        .ok (a, rem.map (shiftTok d))) ∧
    (∀ toks a rem, parseArrayRest fuel toks = .ok (a, rem) →
      parseArrayRest fuel (toks.map (shiftTok d)) =
        .ok (a, rem.map (shiftTok d))) ∧
    (∀ toks a rem, parseObjectEntry fuel toks = .ok (a, rem) →
      parseObjectEntry fuel (toks.map (shiftTok d)) =
        .ok (a, rem.map (shiftTok d))) ∧
    (∀ toks a rem, parseObjectRest fuel toks = .ok (a, rem) →
      parseObjectRest fuel (toks.map (shiftTok d)) =
        .ok (a, rem.map (shiftTok d))) := by
  induction fuel with
  | zero =>
    refine ⟨?_, ?_, ?_, ?_, ?_, ?_, ?_, ?_, ?_⟩ <;>
      · intro toks a rem h
        simp [parsePipeline, parsePipeTail, parseApplication, parseArgs,
          parsePrimary, parseRefPath, parseArrayRest, parseObjectEntry,
          parseObjectRest] at h
  | succ n ih =>
    obtain ⟨ihPipe, ihTail, ihApp, ihArgs, ihPrim, ihPath, ihArr, ihObjE,
      ihObjR⟩ := ih
    refine ⟨?_, ?_, ?_, ?_, ?_, ?_, ?_, ?_, ?_⟩
    -- parsePipeline
    · intro toks a rem h
      simp only [parsePipeline] at h ⊢
      cases hA : parseApplication n toks with
      | error e => rw [hA] at h; simp at h
      | ok pr =>
        obtain ⟨first, rest⟩ := pr
        rw [hA] at h
        simp only [exc_ok_bind] at h
        cases hT : parsePipeTail n rest with
        | error e => rw [hT] at h; simp at h
        | ok pr2 =>
          obtain ⟨more, rest₂⟩ := pr2
          rw [hT] at h
          simp only [exc_ok_bind, Except.ok.injEq, Prod.mk.injEq] at h
          obtain ⟨rfl, rfl⟩ := h
          rw [ihApp _ _ _ hA]
          simp only [exc_ok_bind]
          rw [ihTail _ _ _ hT]
          simp only [exc_ok_bind]
    -- parsePipeTail
    · intro toks a rem h
      simp only [parsePipeTail] at h ⊢
      split at h
      next p rest =>
        cases hA : parseApplication n rest with
        | error e => rw [hA] at h; simp at h
        | ok pr =>
          obtain ⟨stage, rest₂⟩ := pr
          rw [hA] at h
          simp only [exc_ok_bind] at h
          cases hT : parsePipeTail n rest₂ with
          | error e => rw [hT] at h; simp at h
          | ok pr2 =>
            obtain ⟨more, rest₃⟩ := pr2
            rw [hT] at h
            simp only [exc_ok_bind, Except.ok.injEq, Prod.mk.injEq] at h
            obtain ⟨rfl, rfl⟩ := h
            simp only [List.map_cons, shiftTok]
            rw [ihApp _ _ _ hA]
            simp only [exc_ok_bind]
            rw [ihTail _ _ _ hT]
            simp only [exc_ok_bind]
      next hne =>
        simp only [Except.ok.injEq, Prod.mk.injEq] at h
        obtain ⟨rfl, rfl⟩ := h
        have hnp : headIsPipe toks = false := by
          cases toks with
          | nil => rfl
          | cons t rest =>
            by_cases hp : isPipeTok t = true
            · obtain ⟨p, rfl⟩ := isPipeTok_shape hp
              exact absurd rfl (hne p rest)
            · simp at hp; simp [headIsPipe, hp]
        cases n with
        | zero =>
          exact parsePipeTail_noPipe 0 _ (by rw [headIsPipe_shift, hnp])
        | succ m =>
          exact parsePipeTail_noPipe (m + 1) _ (by rw [headIsPipe_shift, hnp])
    -- parseApplication
    · intro toks a rem h
      simp only [parseApplication] at h ⊢
      cases hP : parsePrimary n toks with
      | error e => rw [hP] at h; simp at h
      | ok pr =>
        obtain ⟨fn, rest⟩ := pr
        rw [hP] at h
        simp only [exc_ok_bind] at h
        cases hA : parseArgs n rest with
        | error e => rw [hA] at h; simp at h
        | ok pr2 =>
          obtain ⟨args, rest₂⟩ := pr2
          rw [hA] at h
          simp only [exc_ok_bind, Except.ok.injEq, Prod.mk.injEq] at h
          obtain ⟨rfl, rfl⟩ := h
          rw [ihPrim _ _ _ hP]
          simp only [exc_ok_bind]
          rw [ihArgs _ _ _ hA]
          simp only [exc_ok_bind]
    -- parseArgs
    · intro toks a rem h
      simp only [parseArgs] at h ⊢
      rw [startsPrimaryL_shift]
      by_cases hc : startsPrimaryL toks = true
      · simp only [hc, if_true] at h ⊢
        cases hP : parsePrimary n toks with
        | error e => rw [hP] at h; simp at h
        | ok pr =>
          obtain ⟨a1, rest⟩ := pr
          rw [hP] at h
          simp only [exc_ok_bind] at h
          cases hA : parseArgs n rest with
          | error e => rw [hA] at h; simp at h
          | ok pr2 =>
            obtain ⟨as, rest₂⟩ := pr2
            rw [hA] at h
            simp only [exc_ok_bind, Except.ok.injEq, Prod.mk.injEq] at h
            obtain ⟨rfl, rfl⟩ := h
            rw [ihPrim _ _ _ hP]
            simp only [exc_ok_bind]
            rw [ihArgs _ _ _ hA]
            simp only [exc_ok_bind]
      · simp only [hc, if_false, Except.ok.injEq, Prod.mk.injEq] at h
        obtain ⟨rfl, rfl⟩ := h
        simp only [hc, Bool.false_eq_true, if_false]
    -- parsePrimary
    · intro toks a rem h
      simp only [parsePrimary] at h ⊢
      split at h
      next v rest =>
        simp only [Except.ok.injEq, Prod.mk.injEq] at h
        obtain ⟨rfl, rfl⟩ := h
        simp only [List.map_cons, shiftTok]
      next rf rest =>
        cases hR : parseRefPath n rest with
        | error e => rw [hR] at h; simp at h
        | ok pr =>
          obtain ⟨segs, rest₂⟩ := pr
          rw [hR] at h
          simp only [exc_ok_bind, Except.ok.injEq, Prod.mk.injEq] at h
          obtain ⟨rfl, rfl⟩ := h
          simp only [List.map_cons, shiftTok]
          rw [ihPath _ _ _ hR]
          simp only [exc_ok_bind]
      next p rest =>
        cases hI : parsePipeline n rest with
        | error e => rw [hI] at h; simp at h
        | ok pr =>
          obtain ⟨inner, rest₂⟩ := pr
          rw [hI] at h
          simp only [exc_ok_bind] at h
          split at h
          next q rest₃ =>
            simp only [Except.ok.injEq, Prod.mk.injEq] at h
            obtain ⟨rfl, rfl⟩ := h
            simp only [List.map_cons, shiftTok]
            rw [ihPipe _ _ _ hI]
            simp only [exc_ok_bind, List.map_cons, shiftTok]
          next t rest₃ hne => simp at h
          next => simp at h
      next p rest =>
        split at h
        next q rest₂ =>
          simp only [Except.ok.injEq, Prod.mk.injEq] at h
          obtain ⟨rfl, rfl⟩ := h
          simp only [List.map_cons, shiftTok]
        next hne =>
          cases hI : parsePipeline n rest with
          | error e => rw [hI] at h; simp at h
          | ok pr =>
            obtain ⟨e1, rest₂⟩ := pr
            rw [hI] at h
            simp only [exc_ok_bind] at h
            cases hR : parseArrayRest n rest₂ with
            | error e2 => rw [hR] at h; simp at h
            | ok pr2 =>
              obtain ⟨es, rest₃⟩ := pr2
              rw [hR] at h
              simp only [exc_ok_bind, Except.ok.injEq, Prod.mk.injEq] at h
              obtain ⟨rfl, rfl⟩ := h
              cases rest with
              | nil => exact absurd hI (parsePipeline_nil n _)
              | cons t rest' =>
                simp only [List.map_cons]
                have hI2 := ihPipe _ _ _ hI
                simp only [List.map_cons] at hI2
                cases t with
                | value v p =>
                  simp only [shiftTok] at hI2 ⊢
                  rw [hI2]
                  simp only [exc_ok_bind]
                  rw [ihArr _ _ _ hR]
                  simp only [exc_ok_bind]
                | ref v p =>
                  simp only [shiftTok] at hI2 ⊢
                  rw [hI2]
                  simp only [exc_ok_bind]
                  rw [ihArr _ _ _ hR]
                  simp only [exc_ok_bind]
                | special v p =>
                  simp only [shiftTok] at hI2 ⊢
                  split
                  next q rest₄ heq =>
                    simp only [List.cons.injEq, LexToken.special.injEq] at heq
                    obtain ⟨⟨hv, -⟩, -⟩ := heq
                    subst hv
                    exact absurd rfl (hne p rest')
                  next hne2 =>
                    rw [hI2]
                    simp only [exc_ok_bind]
                    rw [ihArr _ _ _ hR]
                    simp only [exc_ok_bind]
      next p rest =>
        split at h
        next q rest₂ =>
          simp only [Except.ok.injEq, Prod.mk.injEq] at h
          obtain ⟨rfl, rfl⟩ := h
          simp only [List.map_cons, shiftTok]
        next hne =>
          cases hE : parseObjectEntry n rest with
          | error e => rw [hE] at h; simp at h
          | ok pr =>
            obtain ⟨kv, rest₂⟩ := pr
            rw [hE] at h
            simp only [exc_ok_bind] at h
            cases hO : parseObjectRest n rest₂ with
            | error e2 => rw [hO] at h; simp at h
            | ok pr2 =>
              obtain ⟨kvs, rest₃⟩ := pr2
              rw [hO] at h
              simp only [exc_ok_bind, Except.ok.injEq, Prod.mk.injEq] at h
              obtain ⟨rfl, rfl⟩ := h
              cases rest with
              | nil => exact absurd hE (parseObjectEntry_nil n _)
              | cons t rest' =>
                simp only [List.map_cons]
                have hE2 := ihObjE _ _ _ hE
                simp only [List.map_cons] at hE2
                cases t with
                | value v p =>
                  simp only [shiftTok] at hE2 ⊢
                  rw [hE2]
                  simp only [exc_ok_bind]
                  rw [ihObjR _ _ _ hO]
                  simp only [exc_ok_bind]
                | ref v p =>
                  simp only [shiftTok] at hE2 ⊢
                  rw [hE2]
                  simp only [exc_ok_bind]
                  rw [ihObjR _ _ _ hO]
                  simp only [exc_ok_bind]
                | special v p =>
                  simp only [shiftTok] at hE2 ⊢
                  split
                  next q rest₄ heq =>
                    simp only [List.cons.injEq, LexToken.special.injEq] at heq
                    obtain ⟨⟨hv, -⟩, -⟩ := heq
                    subst hv
                    exact absurd rfl (hne p rest')
                  next hne2 =>
                    rw [hE2]
                    simp only [exc_ok_bind]
                    rw [ihObjR _ _ _ hO]
                    simp only [exc_ok_bind]
      next t rest hne => simp at h
      next => simp at h
    -- parseRefPath
    · intro toks a rem h
      simp only [parseRefPath] at h ⊢
      split at h
      next p rest =>
        split at h
        next rf rest₂ =>
          cases hR : parseRefPath n rest₂ with
          | error e => rw [hR] at h; simp at h
          | ok pr =>
            obtain ⟨segs, rest₃⟩ := pr
            rw [hR] at h
            simp only [exc_ok_bind, Except.ok.injEq, Prod.mk.injEq] at h
            obtain ⟨rfl, rfl⟩ := h
            simp only [List.map_cons, shiftTok]
            rw [ihPath _ _ _ hR]
            simp only [exc_ok_bind]
        next hne => simp at h
      next hne =>
        simp only [Except.ok.injEq, Prod.mk.injEq] at h
        obtain ⟨rfl, rfl⟩ := h
        have hnd : headIsDot toks = false := by
          cases toks with
          | nil => rfl
          | cons t rest =>
            by_cases hd : isDotTok t = true
            · obtain ⟨p, rfl⟩ := isDotTok_shape hd
              exact absurd rfl (hne p rest)
            · simp at hd; simp [headIsDot, hd]
        cases n with
        | zero =>
          exact parseRefPath_noDot 0 _ (by rw [headIsDot_shift, hnd])
        | succ m =>
          exact parseRefPath_noDot (m + 1) _ (by rw [headIsDot_shift, hnd])
    -- parseArrayRest
    · intro toks a rem h
      simp only [parseArrayRest] at h ⊢
      split at h
      next p rest =>
        cases hI : parsePipeline n rest with
        | error e => rw [hI] at h; simp at h
        | ok pr =>
          obtain ⟨e1, rest₂⟩ := pr
          rw [hI] at h
          simp only [exc_ok_bind] at h
          cases hR : parseArrayRest n rest₂ with
          | error e2 => rw [hR] at h; simp at h
          | ok pr2 =>
            obtain ⟨es, rest₃⟩ := pr2
            rw [hR] at h
            simp only [exc_ok_bind, Except.ok.injEq, Prod.mk.injEq] at h
            obtain ⟨rfl, rfl⟩ := h
            simp only [List.map_cons, shiftTok]
            rw [ihPipe _ _ _ hI]
            simp only [exc_ok_bind]
            rw [ihArr _ _ _ hR]
            simp only [exc_ok_bind]
      next rest =>
        simp only [Except.ok.injEq, Prod.mk.injEq] at h
        obtain ⟨rfl, rfl⟩ := h
        simp only [List.map_cons, shiftTok]
      next t rest hne => simp at h
      next => simp at h
    -- parseObjectEntry
    · intro toks a rem h
      simp only [parseObjectEntry] at h ⊢
      split at h
      next k q rest =>
        cases hI : parsePipeline n rest with
        | error e => rw [hI] at h; simp at h
        | ok pr =>
          obtain ⟨v, rest₂⟩ := pr
          rw [hI] at h
          simp only [exc_ok_bind, Except.ok.injEq, Prod.mk.injEq] at h
          obtain ⟨rfl, rfl⟩ := h
          simp only [List.map_cons, shiftTok]
          rw [ihPipe _ _ _ hI]
          simp only [exc_ok_bind]
      next t rest hne => simp at h
      next => simp at h
    -- parseObjectRest
    · intro toks a rem h
      simp only [parseObjectRest] at h ⊢
      split at h
      next p rest =>
        cases hE : parseObjectEntry n rest with
        | error e => rw [hE] at h; simp at h
        | ok pr =>
          obtain ⟨kv, rest₂⟩ := pr
          rw [hE] at h
          simp only [exc_ok_bind] at h
          cases hO : parseObjectRest n rest₂ with
          | error e2 => rw [hO] at h; simp at h
          | ok pr2 =>
            obtain ⟨kvs, rest₃⟩ := pr2
            rw [hO] at h
            simp only [exc_ok_bind, Except.ok.injEq, Prod.mk.injEq] at h
            obtain ⟨rfl, rfl⟩ := h
            simp only [List.map_cons, shiftTok]
            rw [ihObjE _ _ _ hE]
            simp only [exc_ok_bind]
            rw [ihObjR _ _ _ hO]
            simp only [exc_ok_bind]
      next rest =>
        simp only [Except.ok.injEq, Prod.mk.injEq] at h
        obtain ⟨rfl, rfl⟩ := h
        simp only [List.map_cons, shiftTok]
      next t rest hne => simp at h
      next => simp at h

mutual
/-- Structural invariant of parsed ASTs (spec section 3): a pipeline has at
least two stages, an application has at least one argument, a reference path
is non-empty — recursively at every node. -/
def astWF : ASTExpression → Bool
  | .literal v => astWFLit v
  | .reference path => !path.isEmpty
  | .application fn args => astWF fn && astWFList args && !args.isEmpty
  | .pipeline stages => astWFList stages && decide (2 ≤ stages.length)

/-- List form of `astWF`. -/
def astWFList : List ASTExpression → Bool
  | [] => true
  | e :: es => astWF e && astWFList es

/-- Literal-payload form of `astWF`. -/
def astWFLit : ASTLiteralValue → Bool
  | .arr es => astWFList es
  | .obj kvs => astWFObj kvs
  | _ => true

/-- Object-entry form of `astWF`. -/
def astWFObj : List (String × ASTExpression) → Bool
  | [] => true
  | kv :: kvs => astWF kv.2 && astWFObj kvs
end

theorem parserWFAll (fuel : Nat) :
    (∀ toks a rem, parsePipeline fuel toks = .ok (a, rem) →
      astWF a = true) ∧
    (∀ toks a rem, parsePipeTail fuel toks = .ok (a, rem) →
      astWFList a = true) ∧
    (∀ toks a rem, parseApplication fuel toks = .ok (a, rem) →
      astWF a = true) ∧
    (∀ toks a rem, parseArgs fuel toks = .ok (a, rem) →
      astWFList a = true) ∧
    (∀ toks a rem, parsePrimary fuel toks = .ok (a, rem) →
      astWF a = true) ∧
    (∀ toks a rem, parseArrayRest fuel toks = .ok (a, rem) →
      astWFList a = true) ∧
    (∀ toks a rem, parseObjectEntry fuel toks = .ok (a, rem) →
      astWF a.2 = true) ∧
    (∀ toks a rem, parseObjectRest fuel toks = .ok (a, rem) →
      astWFObj a = true) := by
  induction fuel with
  | zero =>
    refine ⟨?_, ?_, ?_, ?_, ?_, ?_, ?_, ?_⟩ <;>
      · intro toks a rem h
        simp [parsePipeline, parsePipeTail, parseApplication, parseArgs,
          parsePrimary, parseArrayRest, parseObjectEntry,
          parseObjectRest] at h
  | succ n ih =>
    obtain ⟨ihPipe, ihTail, ihApp, ihArgs, ihPrim, ihArr, ihObjE,
      ihObjR⟩ := ih
    refine ⟨?_, ?_, ?_, ?_, ?_, ?_, ?_, ?_⟩
    -- parsePipeline
    · intro toks a rem h
      simp only [parsePipeline] at h
      cases hA : parseApplication n toks with
      | error e => rw [hA] at h; simp at h
      | ok pr =>
        obtain ⟨first, rest⟩ := pr
        rw [hA] at h
        simp only [exc_ok_bind] at h
        cases hT : parsePipeTail n rest with
        | error e => rw [hT] at h; simp at h
        | ok pr2 =>
          obtain ⟨more, rest₂⟩ := pr2
          rw [hT] at h
          simp only [exc_ok_bind, Except.ok.injEq, Prod.mk.injEq] at h
          obtain ⟨rfl, rfl⟩ := h
          have hf := ihApp _ _ _ hA
          have hm := ihTail _ _ _ hT
          cases more with
          | nil => simpa using hf
          | cons m ms =>
            simp only [List.isEmpty_cons, Bool.false_eq_true, if_false]
            simp only [astWF, astWFList, Bool.and_eq_true] at hm ⊢
            refine ⟨⟨hf, hm⟩, ?_⟩
            simp only [decide_eq_true_eq, List.length_cons]
            omega
    -- parsePipeTail
    · intro toks a rem h
      simp only [parsePipeTail] at h
      split at h
      next p rest =>
        cases hA : parseApplication n rest with
        | error e => rw [hA] at h; simp at h
        | ok pr =>
          obtain ⟨stage, rest₂⟩ := pr
          rw [hA] at h
          simp only [exc_ok_bind] at h
          cases hT : parsePipeTail n rest₂ with
          | error e => rw [hT] at h; simp at h
          | ok pr2 =>
            obtain ⟨more, rest₃⟩ := pr2
            rw [hT] at h
            simp only [exc_ok_bind, Except.ok.injEq, Prod.mk.injEq] at h
            obtain ⟨rfl, rfl⟩ := h
            simp [astWFList, ihApp _ _ _ hA, ihTail _ _ _ hT]
      next hne =>
        simp only [Except.ok.injEq, Prod.mk.injEq] at h
        obtain ⟨rfl, rfl⟩ := h
        simp [astWFList]
    -- parseApplication
    · intro toks a rem h
      simp only [parseApplication] at h
      cases hP : parsePrimary n toks with
      | error e => rw [hP] at h; simp at h
      | ok pr =>
        obtain ⟨fn, rest⟩ := pr
        rw [hP] at h
        simp only [exc_ok_bind] at h
        cases hA : parseArgs n rest with
        | error e => rw [hA] at h; simp at h
        | ok pr2 =>
          obtain ⟨args, rest₂⟩ := pr2
          rw [hA] at h
          simp only [exc_ok_bind, Except.ok.injEq, Prod.mk.injEq] at h
          obtain ⟨rfl, rfl⟩ := h
          have hf := ihPrim _ _ _ hP
          have ha := ihArgs _ _ _ hA
          cases args with
          | nil => simpa using hf
          | cons a1 as =>
            simp only [List.isEmpty_cons, Bool.false_eq_true, if_false]
            simp [astWF, hf, ha]
    -- parseArgs
    · intro toks a rem h
      simp only [parseArgs] at h
      by_cases hc : startsPrimaryL toks = true
      · simp only [hc, if_true] at h
        cases hP : parsePrimary n toks with
        | error e => rw [hP] at h; simp at h
        | ok pr =>
          obtain ⟨a1, rest⟩ := pr
          rw [hP] at h
          simp only [exc_ok_bind] at h
          cases hA : parseArgs n rest with
          | error e => rw [hA] at h; simp at h
          | ok pr2 =>
            obtain ⟨as, rest₂⟩ := pr2
            rw [hA] at h
            simp only [exc_ok_bind, Except.ok.injEq, Prod.mk.injEq] at h
            obtain ⟨rfl, rfl⟩ := h
            simp [astWFList, ihPrim _ _ _ hP, ihArgs _ _ _ hA]
      · simp only [hc, if_false, Except.ok.injEq, Prod.mk.injEq] at h
        obtain ⟨rfl, rfl⟩ := h
        simp [astWFList]
    -- parsePrimary
    · intro toks a rem h
      simp only [parsePrimary] at h
      split at h
      next v p rest =>
        simp only [Except.ok.injEq, Prod.mk.injEq] at h
        obtain ⟨rfl, rfl⟩ := h
        cases v <;> simp [literalOfValue, astWF, astWFLit]
      next rf rest =>
        cases hR : parseRefPath n rest with
        | error e => rw [hR] at h; simp at h
        | ok pr =>
          obtain ⟨segs, rest₂⟩ := pr
          rw [hR] at h
          simp only [exc_ok_bind, Except.ok.injEq, Prod.mk.injEq] at h
          obtain ⟨rfl, rfl⟩ := h
          simp [astWF]
      next p rest =>
        cases hI : parsePipeline n rest with
        | error e => rw [hI] at h; simp at h
        | ok pr =>
          obtain ⟨inner, rest₂⟩ := pr
          rw [hI] at h
          simp only [exc_ok_bind] at h
          split at h
          next q rest₃ =>
            simp only [Except.ok.injEq, Prod.mk.injEq] at h
            obtain ⟨rfl, rfl⟩ := h
            exact ihPipe _ _ _ hI
          next t rest₃ hne => simp at h
          next => simp at h
      next p rest =>
        split at h
        next q rest₂ =>
          simp only [Except.ok.injEq, Prod.mk.injEq] at h
          obtain ⟨rfl, rfl⟩ := h
          simp [astWF, astWFLit, astWFList]
        next hne =>
          cases hI : parsePipeline n rest with
          | error e => rw [hI] at h; simp at h
          | ok pr =>
            obtain ⟨e1, rest₂⟩ := pr
            rw [hI] at h
            simp only [exc_ok_bind] at h
            cases hR : parseArrayRest n rest₂ with
            | error e2 => rw [hR] at h; simp at h
            | ok pr2 =>
              obtain ⟨es, rest₃⟩ := pr2
              rw [hR] at h
              simp only [exc_ok_bind, Except.ok.injEq, Prod.mk.injEq] at h
              obtain ⟨rfl, rfl⟩ := h
              simp [astWF, astWFLit, astWFList, ihPipe _ _ _ hI,
                ihArr _ _ _ hR]
      next p rest =>
        split at h
        next q rest₂ =>
          simp only [Except.ok.injEq, Prod.mk.injEq] at h
          obtain ⟨rfl, rfl⟩ := h
          simp [astWF, astWFLit, astWFObj]
        next hne =>
          cases hE : parseObjectEntry n rest with
          | error e => rw [hE] at h; simp at h
          | ok pr =>
            obtain ⟨kv, rest₂⟩ := pr
            rw [hE] at h
            simp only [exc_ok_bind] at h
            cases hO : parseObjectRest n rest₂ with
            | error e2 => rw [hO] at h; simp at h
            | ok pr2 =>
              obtain ⟨kvs, rest₃⟩ := pr2
              rw [hO] at h
              simp only [exc_ok_bind, Except.ok.injEq, Prod.mk.injEq] at h
              obtain ⟨rfl, rfl⟩ := h
              simp [astWF, astWFLit, astWFObj, ihObjE _ _ _ hE,
                ihObjR _ _ _ hO]
      next t rest hne => simp at h
      next => simp at h
    -- parseArrayRest
    · intro toks a rem h
      simp only [parseArrayRest] at h
      split at h
      next p rest =>
        cases hI : parsePipeline n rest with
        | error e => rw [hI] at h; simp at h
        | ok pr =>
          obtain ⟨e1, rest₂⟩ := pr
          rw [hI] at h
          simp only [exc_ok_bind] at h
          cases hR : parseArrayRest n rest₂ with
          | error e2 => rw [hR] at h; simp at h
          | ok pr2 =>
            obtain ⟨es, rest₃⟩ := pr2
            rw [hR] at h
            simp only [exc_ok_bind, Except.ok.injEq, Prod.mk.injEq] at h
            obtain ⟨rfl, rfl⟩ := h
            simp [astWFList, ihPipe _ _ _ hI, ihArr _ _ _ hR]
      next rest =>
        simp only [Except.ok.injEq, Prod.mk.injEq] at h
        obtain ⟨rfl, rfl⟩ := h
        simp [astWFList]
      next t rest hne => simp at h
      next => simp at h
    -- parseObjectEntry
    · intro toks a rem h
      simp only [parseObjectEntry] at h
      split at h
      next k q rest =>
        cases hI : parsePipeline n rest with
        | error e => rw [hI] at h; simp at h
        | ok pr =>
          obtain ⟨v, rest₂⟩ := pr
          rw [hI] at h
          simp only [exc_ok_bind, Except.ok.injEq, Prod.mk.injEq] at h
          obtain ⟨rfl, rfl⟩ := h
          exact ihPipe _ _ _ hI
      next t rest hne => simp at h
      next => simp at h
    -- parseObjectRest
    · intro toks a rem h
      simp only [parseObjectRest] at h
      split at h
      next p rest =>
        cases hE : parseObjectEntry n rest with
        | error e => rw [hE] at h; simp at h
        | ok pr =>
          obtain ⟨kv, rest₂⟩ := pr
          rw [hE] at h
          simp only [exc_ok_bind] at h
          cases hO : parseObjectRest n rest₂ with
          | error e2 => rw [hO] at h; simp at h
          | ok pr2 =>
            obtain ⟨kvs, rest₃⟩ := pr2
            rw [hO] at h
            simp only [exc_ok_bind, Except.ok.injEq, Prod.mk.injEq] at h
            obtain ⟨rfl, rfl⟩ := h
            simp [astWFObj, ihObjE _ _ _ hE, ihObjR _ _ _ hO]
      next rest =>
        simp only [Except.ok.injEq, Prod.mk.injEq] at h
        obtain ⟨rfl, rfl⟩ := h
        simp [astWFObj]
      next t rest hne => simp at h
      next => simp at h

theorem takeWhile_append_one {p : Char → Bool} {c : Char} (hc : p c = false)
    (l : List Char) : List.takeWhile p (l ++ [c]) = List.takeWhile p l := by
  induction l with
  | nil => simp [List.takeWhile, hc]
  | cons a l ih =>
    by_cases ha : p a = true
    · simp [List.takeWhile_cons, ha, ih]
    · simp at ha
      simp [List.takeWhile_cons, ha]

theorem dropWhile_append_one {p : Char → Bool} {c : Char} (hc : p c = false)
    (l : List Char) :
    List.dropWhile p (l ++ [c]) = List.dropWhile p l ++ [c] := by
  induction l with
  | nil => simp [List.dropWhile, hc]
  | cons a l ih =>
    by_cases ha : p a = true
    · simp [List.dropWhile_cons, ha, ih]
    · simp at ha
      simp [List.dropWhile_cons, ha]

theorem takeWhile_append_keep {p : Char → Bool} {l : List Char}
    (h : List.dropWhile p l ≠ []) (m : List Char) :
    List.takeWhile p (l ++ m) = List.takeWhile p l := by
  induction l with
  | nil => simp [List.dropWhile] at h
  | cons a l ih =>
    by_cases ha : p a = true
    · rw [List.dropWhile_cons, if_pos ha] at h
      simp [List.takeWhile_cons, ha, ih h]
    · simp at ha
      simp [List.takeWhile_cons, ha]

theorem dropWhile_append_keep {p : Char → Bool} {l : List Char}
    (h : List.dropWhile p l ≠ []) (m : List Char) :
    List.dropWhile p (l ++ m) = List.dropWhile p l ++ m := by
  induction l with
  | nil => simp [List.dropWhile] at h
  | cons a l ih =>
    by_cases ha : p a = true
    · rw [List.dropWhile_cons, if_pos ha] at h
      simp [List.dropWhile_cons, ha, ih h]
    · simp at ha
      simp [List.dropWhile_cons, ha]

theorem fracSplit_append_rparen (l : List Char) :
    fracSplit (l ++ [')']) = ((fracSplit l).1, (fracSplit l).2 ++ [')']) := by
  match l with
  | [] => rfl
  | [a] =>
    by_cases ha : a = '.'
    · subst ha; rfl
    · have h1 : fracSplit [a] = ([], [a]) := by
        rw [fracSplit.eq_def]
        split
        next d rest heq =>
          exfalso
          injection heq with h2 h3
          exact ha h2
        next => rfl
      have h2 : fracSplit ([a] ++ [')']) = ([], [a, ')']) := by
        rw [fracSplit.eq_def]
        split
        next d rest heq =>
          exfalso
          injection heq with h2 h3
          exact ha h2
        next => rfl
      rw [h1, h2]
      simp
  | a :: b :: rest =>
    by_cases ha : a = '.'
    · subst ha
      show fracSplit ('.' :: b :: (rest ++ [')'])) = _
      by_cases hb : isDigitChar b = true
      · simp only [fracSplit, hb, if_true]
        rw [takeWhile_append_one (by rfl) rest,
          dropWhile_append_one (by rfl) rest]
      · simp only [fracSplit, hb, if_false]
        simp at hb
        simp [hb]
    · have h1 : fracSplit (a :: b :: rest) = ([], a :: b :: rest) := by
        rw [fracSplit.eq_def]
        split
        next d rest2 heq =>
          exfalso
          injection heq with h2 h3
          exact ha h2
        next => rfl
      have h2 : fracSplit (a :: b :: (rest ++ [')'])) =
          ([], a :: b :: (rest ++ [')'])) := by
        rw [fracSplit.eq_def]
        split
        next d rest2 heq =>
          exfalso
          injection heq with h2 h3
          exact ha h2
        next => rfl
      show fracSplit (a :: b :: (rest ++ [')'])) = _
      rw [h1, h2]
      simp

theorem fracSplit_arith (l : List Char) :
    (if (fracSplit l).1.isEmpty then 0 else 1 + (fracSplit l).1.length) +
      (fracSplit l).2.length = l.length := by
  match l with
  | [] => rfl
  | [a] =>
    by_cases ha : a = '.'
    · subst ha; rfl
    · have h1 : fracSplit [a] = ([], [a]) := by
        rw [fracSplit.eq_def]
        split
        next d rest heq =>
          exfalso
          injection heq with h2 h3
          exact ha h2
        next => rfl
      rw [h1]
      simp
  | a :: b :: rest =>
    by_cases ha : a = '.'
    · subst ha
      by_cases hb : isDigitChar b = true
      · simp only [fracSplit, hb, if_true]
        have hlen := congrArg List.length
          (@List.takeWhile_append_dropWhile _ isDigitChar rest)
        simp only [List.length_append] at hlen
        simp only [List.isEmpty_cons, Bool.false_eq_true, if_false,
          List.length_cons]
        omega
      · simp only [fracSplit, hb, if_false]
        simp
    · have h1 : fracSplit (a :: b :: rest) = ([], a :: b :: rest) := by
        rw [fracSplit.eq_def]
        split
        next d rest2 heq =>
          exfalso
          injection heq with h2 h3
          exact ha h2
        next => rfl
      rw [h1]
      simp

theorem identToken_shift (d : Nat) (s : String) (pos : Nat) :
    shiftTok d (identToken s pos) = identToken s (pos + d) := by
  simp only [identToken]
  split_ifs <;> rfl

theorem lexFrom_shift :
    ∀ (f : Nat) (cs : List Char) (pos d : Nat) (ts : List LexToken),
    lexFrom f cs pos = .ok ts →
    lexFrom f cs (pos + d) = .ok (ts.map (shiftTok d)) := by
  intro f
  induction f with
  | zero => intro cs pos d ts h; simp [lexFrom] at h
  | succ n ih =>
    intro cs pos d ts h
    cases cs with
    | nil =>
      simp only [lexFrom, Except.ok.injEq] at h ⊢
      subst h
      rfl
    | cons c cs =>
      simp only [lexFrom] at h ⊢
      by_cases hw : isWhitespaceChar c = true
      · rw [if_pos hw] at h ⊢
        rw [Nat.add_right_comm pos d 1]
        exact ih cs (pos + 1) d ts h
      · rw [if_neg hw] at h ⊢
        by_cases hsp : isSpecialChar c = true
        · rw [if_pos hsp] at h ⊢
          cases hrec : lexFrom n cs (pos + 1) with
          | error e => rw [hrec] at h; simp at h
          | ok rest =>
            rw [hrec] at h
            simp only [exc_ok_bind, Except.ok.injEq] at h
            subst h
            rw [Nat.add_right_comm pos d 1, ih cs (pos + 1) d rest hrec]
            simp only [exc_ok_bind, List.map_cons, shiftTok]
        · rw [if_neg hsp] at h ⊢
          by_cases hd : isDigitChar c = true
          · rw [if_pos hd] at h ⊢
            cases hrec : lexFrom n
                (fracSplit (List.dropWhile isDigitChar cs)).2
                (pos + (c :: List.takeWhile isDigitChar cs).length +
                  (if (fracSplit (List.dropWhile isDigitChar cs)).1.isEmpty
                   then 0
                   else 1 +
                     (fracSplit (List.dropWhile isDigitChar cs)).1.length))
              with
            | error e => rw [hrec] at h; simp at h
            | ok rest =>
              rw [hrec] at h
              simp only [exc_ok_bind, Except.ok.injEq] at h
              subst h
              have harith : pos + d +
                  (c :: List.takeWhile isDigitChar cs).length +
                  (if (fracSplit (List.dropWhile isDigitChar cs)).1.isEmpty
                   then 0
                   else 1 +
                     (fracSplit (List.dropWhile isDigitChar cs)).1.length) =
                  pos + (c :: List.takeWhile isDigitChar cs).length +
                  (if (fracSplit (List.dropWhile isDigitChar cs)).1.isEmpty
                   then 0
                   else 1 +
                     (fracSplit (List.dropWhile isDigitChar cs)).1.length) +
                  d := by omega
              rw [harith, ih _ _ d rest hrec]
              simp only [exc_ok_bind, List.map_cons, shiftTok]
          · rw [if_neg hd] at h ⊢
            by_cases hq : c = '"'
            · rw [if_pos hq] at h ⊢
              split at h
              next q rest₂ heq =>
                cases hrec : lexFrom n rest₂
                    (pos + (List.takeWhile notQuote cs).length + 2) with
                | error e => rw [hrec] at h; simp at h
                | ok rest =>
                  rw [hrec] at h
                  simp only [exc_ok_bind, Except.ok.injEq] at h
                  subst h
                  have harith : pos + d +
                      (List.takeWhile notQuote cs).length + 2 =
                      pos + (List.takeWhile notQuote cs).length + 2 + d := by
                    omega
                  rw [harith, ih _ _ d rest hrec]
                  simp only [exc_ok_bind, List.map_cons, shiftTok]
              next heq => simp at h
            · rw [if_neg hq] at h ⊢
              by_cases hat : c = '@'
              · rw [if_pos hat] at h ⊢
                cases hrec : lexFrom n cs (pos + 1) with
                | error e => rw [hrec] at h; simp at h
                | ok rest =>
                  rw [hrec] at h
                  simp only [exc_ok_bind, Except.ok.injEq] at h
                  subst h
                  rw [Nat.add_right_comm pos d 1, ih cs (pos + 1) d rest hrec]
                  simp only [exc_ok_bind, List.map_cons, shiftTok]
              · rw [if_neg hat] at h ⊢
                by_cases hid : isIdentStart c = true
                · rw [if_pos hid] at h ⊢
                  cases hrec : lexFrom n
                      (List.dropWhile isIdentChar cs)
                      (pos + (c :: List.takeWhile isIdentChar cs).length) with
                  | error e => rw [hrec] at h; simp at h
                  | ok rest =>
                    rw [hrec] at h
                    simp only [exc_ok_bind, Except.ok.injEq] at h
                    subst h
                    have harith : pos + d +
                        (c :: List.takeWhile isIdentChar cs).length =
                        pos + (c :: List.takeWhile isIdentChar cs).length +
                          d := by omega
                    rw [harith, ih _ _ d rest hrec]
                    simp only [exc_ok_bind, List.map_cons, identToken_shift]
                · rw [if_neg hid] at h
                  simp at h

theorem rparen_not_digit : isDigitChar ')' = false := rfl
theorem rparen_not_ident : isIdentChar ')' = false := rfl

theorem lexFrom_append_rparen :
    ∀ (f : Nat) (cs : List Char) (pos : Nat) (ts : List LexToken),
    lexFrom f cs pos = .ok ts →
    lexFrom (f + 1) (cs ++ [')']) pos =
      .ok (ts ++ [.special ")" (pos + cs.length)]) := by
  intro f
  induction f with
  | zero => intro cs pos ts h; simp [lexFrom] at h
  | succ n ih =>
    intro cs pos ts h
    cases cs with
    | nil =>
      simp only [lexFrom, Except.ok.injEq] at h
      subst h
      rfl
    | cons c cs =>
      simp only [lexFrom] at h
      rw [List.cons_append]
      simp only [lexFrom]
      by_cases hw : isWhitespaceChar c = true
      · rw [if_pos hw] at h ⊢
        rw [ih cs (pos + 1) ts h]
        have harith : pos + 1 + cs.length = pos + (c :: cs).length := by
          simp only [List.length_cons]
          omega
        rw [harith]
      · rw [if_neg hw] at h ⊢
        by_cases hsp : isSpecialChar c = true
        · rw [if_pos hsp] at h ⊢
          cases hrec : lexFrom n cs (pos + 1) with
          | error e => rw [hrec] at h; simp at h
          | ok rest =>
            rw [hrec] at h
            simp only [exc_ok_bind, Except.ok.injEq] at h
            subst h
            rw [ih cs (pos + 1) rest hrec]
            simp only [exc_ok_bind, List.cons_append, List.length_cons]
            have harith : pos + 1 + cs.length = pos + (cs.length + 1) := by
              omega
            rw [harith]
        · rw [if_neg hsp] at h ⊢
          by_cases hd : isDigitChar c = true
          · rw [if_pos hd] at h ⊢
            rw [takeWhile_append_one rparen_not_digit cs,
              dropWhile_append_one rparen_not_digit cs,
              fracSplit_append_rparen]
            cases hrec : lexFrom n
                (fracSplit (List.dropWhile isDigitChar cs)).2
                (pos + (c :: List.takeWhile isDigitChar cs).length +
                  (if (fracSplit (List.dropWhile isDigitChar cs)).1.isEmpty
                   then 0
                   else 1 +
                     (fracSplit (List.dropWhile isDigitChar cs)).1.length))
              with
            | error e => rw [hrec] at h; simp at h
            | ok rest =>
              rw [hrec] at h
              simp only [exc_ok_bind, Except.ok.injEq] at h
              subst h
              rw [ih _ _ rest hrec]
              simp only [exc_ok_bind, List.cons_append]
              have hlen := congrArg List.length
                (@List.takeWhile_append_dropWhile _ isDigitChar cs)
              simp only [List.length_append] at hlen
              have harith := fracSplit_arith (List.dropWhile isDigitChar cs)
              have harith2 : pos + (c :: List.takeWhile isDigitChar cs).length +
                  (if (fracSplit (List.dropWhile isDigitChar cs)).1.isEmpty
                   then 0
                   else 1 +
                     (fracSplit (List.dropWhile isDigitChar cs)).1.length) +
                  (fracSplit (List.dropWhile isDigitChar cs)).2.length =
                  pos + (c :: cs).length := by
                simp only [List.length_cons] at harith ⊢
                omega
              rw [harith2]
          · rw [if_neg hd] at h ⊢
            by_cases hq : c = '"'
            · rw [if_pos hq] at h ⊢
              split at h
              next q rest₂ heq =>
                have hnn : List.dropWhile notQuote cs ≠ [] := by
                  rw [heq]; simp
                rw [takeWhile_append_keep hnn [')'],
                  dropWhile_append_keep hnn [')'], heq, List.cons_append]
                dsimp only
                cases hrec : lexFrom n rest₂
                    (pos + (List.takeWhile notQuote cs).length + 2) with
                | error e => rw [hrec] at h; simp at h
                | ok rest =>
                  rw [hrec] at h
                  simp only [exc_ok_bind, Except.ok.injEq] at h
                  subst h
                  rw [ih _ _ rest hrec]
                  simp only [exc_ok_bind, List.cons_append]
                  have hlen := congrArg List.length
                    (@List.takeWhile_append_dropWhile _ notQuote cs)
                  simp only [List.length_append] at hlen
                  have hlen2 := congrArg List.length heq
                  simp only [List.length_cons] at hlen2
                  have harith : pos + (List.takeWhile notQuote cs).length + 2 +
                      rest₂.length = pos + (c :: cs).length := by
                    simp only [List.length_cons]
                    omega
                  rw [harith]
              next heq => simp at h
            · rw [if_neg hq] at h ⊢
              by_cases hat : c = '@'
              · rw [if_pos hat] at h ⊢
                cases hrec : lexFrom n cs (pos + 1) with
                | error e => rw [hrec] at h; simp at h
                | ok rest =>
                  rw [hrec] at h
                  simp only [exc_ok_bind, Except.ok.injEq] at h
                  subst h
                  rw [ih cs (pos + 1) rest hrec]
                  simp only [exc_ok_bind, List.cons_append, List.length_cons]
                  have harith : pos + 1 + cs.length = pos + (cs.length + 1) := by
                    omega
                  rw [harith]
              · rw [if_neg hat] at h ⊢
                by_cases hid : isIdentStart c = true
                · rw [if_pos hid] at h ⊢
                  rw [takeWhile_append_one rparen_not_ident cs,
                    dropWhile_append_one rparen_not_ident cs]
                  cases hrec : lexFrom n (List.dropWhile isIdentChar cs)
                      (pos + (c :: List.takeWhile isIdentChar cs).length) with
                  | error e => rw [hrec] at h; simp at h
                  | ok rest =>
                    rw [hrec] at h
                    simp only [exc_ok_bind, Except.ok.injEq] at h
                    subst h
                    rw [ih _ _ rest hrec]
                    simp only [exc_ok_bind, List.cons_append]
                    have hlen := congrArg List.length
                      (@List.takeWhile_append_dropWhile _ isIdentChar cs)
                    simp only [List.length_append] at hlen
                    have harith : pos +
                        (c :: List.takeWhile isIdentChar cs).length +
                        (List.dropWhile isIdentChar cs).length =
                        pos + (c :: cs).length := by
                      simp only [List.length_cons]
                      omega
                    rw [harith]
                · rw [if_neg hid] at h
                  simp at h

theorem parsePipeline_mono {f g : Nat} {toks : List LexToken}
    {r : ASTExpression × List LexToken} (hle : f ≤ g)
    (h : parsePipeline f toks = .ok r) : parsePipeline g toks = .ok r :=
  (parserMonoAll f).1 g toks r hle h

theorem parseApplication_mono {f g : Nat} {toks : List LexToken}
    {r : ASTExpression × List LexToken} (hle : f ≤ g)
    (h : parseApplication f toks = .ok r) : parseApplication g toks = .ok r :=
  (parserMonoAll f).2.2.1 g toks r hle h

theorem parsePrimary_mono {f g : Nat} {toks : List LexToken}
    {r : ASTExpression × List LexToken} (hle : f ≤ g)
    (h : parsePrimary f toks = .ok r) : parsePrimary g toks = .ok r :=
  (parserMonoAll f).2.2.2.2.1 g toks r hle h

theorem parsePipeline_ext (ext : List LexToken) {f : Nat}
    {toks : List LexToken} {a : ASTExpression} {rem : List LexToken}
    (h : parsePipeline f toks = .ok (a, rem))
    (hstop : rem = [] → extPipeOk ext = true) :
    parsePipeline f (toks ++ ext) = .ok (a, rem ++ ext) :=
  (parserExtAll ext f).1 toks a rem h hstop

theorem parseApplication_ext (ext : List LexToken) {f : Nat}
    {toks : List LexToken} {a : ASTExpression} {rem : List LexToken}
    (h : parseApplication f toks = .ok (a, rem))
    (hstop : rem = [] → extAppOk ext = true) :
    parseApplication f (toks ++ ext) = .ok (a, rem ++ ext) :=
  (parserExtAll ext f).2.2.1 toks a rem h hstop

theorem parsePrimary_ext (ext : List LexToken) {f : Nat}
    {toks : List LexToken} {a : ASTExpression} {rem : List LexToken}
    (h : parsePrimary f toks = .ok (a, rem))
    (hstop : rem = [] → extPrimOk ext = true) :
    parsePrimary f (toks ++ ext) = .ok (a, rem ++ ext) :=
  (parserExtAll ext f).2.2.2.2.1 toks a rem h hstop

theorem parsePipeline_shift (d : Nat) {f : Nat} {toks : List LexToken}
    {a : ASTExpression} {rem : List LexToken}
    (h : parsePipeline f toks = .ok (a, rem)) :
    parsePipeline f (toks.map (shiftTok d)) =
      .ok (a, rem.map (shiftTok d)) :=
  (parserShiftAll d f).1 toks a rem h

theorem extPipeOk_rparen (q : Nat) :
    extPipeOk [LexToken.special ")" q] = true := by
  simp [extPipeOk, headIsDot, isDotTok, startsPrimaryL, startsPrimaryTok,
    headIsPipe, isPipeTok]

theorem parsePipeline_paren {f : Nat} {toks : List LexToken}
    {a : ASTExpression} (h : parsePipeline f toks = .ok (a, []))
    (p q : Nat) :
    parsePipeline (f + 3)
      (.special "(" p :: (toks ++ [.special ")" q])) = .ok (a, []) := by
  have hext : parsePipeline f (toks ++ [.special ")" q]) =
      .ok (a, [.special ")" q]) := by
    have := parsePipeline_ext [.special ")" q] h
      (fun _ => extPipeOk_rparen q)
    simpa using this
  have hprim : parsePrimary (f + 1)
      (LexToken.special "(" p :: (toks ++ [LexToken.special ")" q])) =
      .ok (a, []) := by
    simp only [parsePrimary]
    rw [hext]
    simp only [exc_ok_bind]
  have happ : parseApplication (f + 2)
      (LexToken.special "(" p :: (toks ++ [LexToken.special ")" q])) =
      .ok (a, []) := by
    show parseApplication (f + 1 + 1) _ = _
    simp only [parseApplication]
    rw [hprim]
    simp only [exc_ok_bind]
    have hargs : parseArgs (f + 1) ([] : List LexToken) = .ok ([], []) := by
      show parseArgs (f + 0 + 1) _ = _
      simp only [parseArgs]
      simp [startsPrimaryL]
    rw [hargs]
    simp only [exc_ok_bind]
    rfl
  have htail : parsePipeTail (f + 2) ([] : List LexToken) = .ok ([], []) := by
    show parsePipeTail (f + 1 + 1) _ = _
    simp only [parsePipeTail]
  show parsePipeline (f + 2 + 1) _ = _
  simp only [parsePipeline]
  rw [happ]
  simp only [exc_ok_bind]
  rw [htail]
  simp only [exc_ok_bind]
  rfl

theorem parseTokens_of_pipeline {toks : List LexToken} {a : ASTExpression}
    (h : parsePipeline (parseFuel toks) toks = .ok (a, [])) :
    parseTokens toks = .ok a := by
  unfold parseTokens
  rw [h]
  rfl

theorem pipeline_of_parseTokens {toks : List LexToken} {a : ASTExpression}
    (h : parseTokens toks = .ok a) :
    parsePipeline (parseFuel toks) toks = .ok (a, []) := by
  unfold parseTokens at h
  cases hpp : parsePipeline (parseFuel toks) toks with
  | error e => rw [hpp] at h; simp at h
  | ok pr =>
    obtain ⟨a2, rem⟩ := pr
    rw [hpp] at h
    simp only [exc_ok_bind] at h
    cases rem with
    | nil => simp at h; rw [h]
    | cons t rest => simp at h

theorem parse_of_parts {s : String} {ts : List LexToken} {a : ASTExpression}
    (h1 : tokenize s = .ok ts) (h2 : parseTokens ts = .ok a) :
    parse s = .ok a := by
  unfold parse
  rw [h1]
  show Except.mapError ParseFailure.parse (parseTokens ts) = Except.ok a
  rw [h2]
  rfl

theorem parts_of_parse {s : String} {a : ASTExpression}
    (h : parse s = .ok a) :
    ∃ ts, tokenize s = .ok ts ∧ parseTokens ts = .ok a := by
  unfold parse at h
  cases htok : tokenize s with
  | error e => rw [htok] at h; simp at h
  | ok ts =>
    rw [htok] at h
    have h2 : Except.mapError ParseFailure.parse (parseTokens ts) =
        Except.ok a := h
    cases hpt : parseTokens ts with
    | error e => rw [hpt] at h2; simp [Except.mapError] at h2
    | ok a2 =>
      rw [hpt] at h2
      simp [Except.mapError] at h2
      exact ⟨ts, rfl, by rw [hpt, h2]⟩

theorem tokenize_paren {s : String} {ts : List LexToken}
    (h : tokenize s = .ok ts) :
    tokenize ("(" ++ s ++ ")") =
      .ok (.special "(" 0 :: (ts.map (shiftTok 1) ++
        [.special ")" (1 + s.data.length)])) := by
  unfold tokenize at h ⊢
  have hdata : ("(" ++ s ++ ")").data = '(' :: (s.data ++ [')']) := by
    simp [String.data_append]
  rw [hdata]
  have hshift : lexFrom (s.data.length + 1) s.data 1 =
      .ok (ts.map (shiftTok 1)) := by
    have := lexFrom_shift (s.data.length + 1) s.data 0 1 ts h
    simpa using this
  have happ : lexFrom (s.data.length + 1 + 1) (s.data ++ [')']) 1 =
      .ok (ts.map (shiftTok 1) ++ [.special ")" (1 + s.data.length)]) :=
    lexFrom_append_rparen (s.data.length + 1) s.data 1 (ts.map (shiftTok 1))
      hshift
  have hlen : ('(' :: (s.data ++ [')'])).length + 1 =
      s.data.length + 1 + 1 + 1 := by
    simp [List.length_append]
  rw [hlen]
  show lexFrom (s.data.length + 1 + 1 + 1) _ 0 = _
  simp only [lexFrom]
  rw [if_neg (by decide : ¬(isWhitespaceChar '(' = true)),
    if_pos (by decide : isSpecialChar '(' = true)]
  rw [show (0 + 1 : Nat) = 1 from by omega, happ]
  simp only [exc_ok_bind]

theorem parse_paren {s : String} {a : ASTExpression}
    (h : parse s = .ok a) : parse ("(" ++ s ++ ")") = .ok a := by
  obtain ⟨ts, htok, hpt⟩ := parts_of_parse h
  have hpp := pipeline_of_parseTokens hpt
  have hsh : parsePipeline (parseFuel ts) (ts.map (shiftTok 1)) =
      .ok (a, []) := by
    have := parsePipeline_shift 1 hpp
    simpa using this
  have hwrap := parsePipeline_paren hsh 0 (1 + s.data.length)
  have htok2 := tokenize_paren htok
  apply parse_of_parts htok2
  apply parseTokens_of_pipeline
  have hlen : parseFuel (LexToken.special "(" 0 :: (ts.map (shiftTok 1) ++
      [LexToken.special ")" (1 + s.data.length)])) =
      5 * ts.length + 20 := by
    simp [parseFuel, List.length_append, List.length_map, List.length_cons]
    omega
  rw [hlen]
  have hmono : parseFuel ts + 3 ≤ 5 * ts.length + 20 := by
    simp [parseFuel]
  exact parsePipeline_mono hmono hwrap

/-- Concatenation of token chunks. -/
def flatToks : List (List LexToken) → List LexToken
  | [] => []
  | c :: rest => c ++ flatToks rest

/-- Token chunks joined as further pipeline stages: each chunk is preceded by
a pipe token (at an arbitrary recorded position). -/
def joinTail : List (Nat × List LexToken) → List LexToken
  | [] => []
  | pc :: rest => .special "|" pc.1 :: (pc.2 ++ joinTail rest)

/-- A token chunk that parses completely as one Application-level
expression. -/
def AppChunk (c : List LexToken) (a : ASTExpression) : Prop :=
  parseApplication (5 * c.length + 10) c = .ok (a, [])

/-- A token chunk that parses completely as one Primary. -/
def PrimChunk (c : List LexToken) (p : ASTExpression) : Prop :=
  parsePrimary (5 * c.length + 10) c = .ok (p, [])

theorem extAppOk_joinTail (chunks : List (Nat × List LexToken)) :
    extAppOk (joinTail chunks) = true := by
  cases chunks with
  | nil => rfl
  | cons pc rest =>
    simp [joinTail, extAppOk, headIsDot, isDotTok, startsPrimaryL,
      startsPrimaryTok]

theorem parsePrimary_head_starts {f : Nat} {toks : List LexToken}
    {a : ASTExpression} {rem : List LexToken}
    (h : parsePrimary f toks = .ok (a, rem)) :
    startsPrimaryL toks = true := by
  cases f with
  | zero => simp [parsePrimary] at h
  | succ n =>
    simp only [parsePrimary] at h
    split at h
    next v p rest => simp [startsPrimaryL, startsPrimaryTok]
    next rf rest => simp [startsPrimaryL, startsPrimaryTok]
    next p rest => simp [startsPrimaryL, startsPrimaryTok]
    next p rest => simp [startsPrimaryL, startsPrimaryTok]
    next p rest => simp [startsPrimaryL, startsPrimaryTok]
    next t rest hne => simp at h
    next => simp at h

theorem startsPrim_not_dot {t : LexToken}
    (h : startsPrimaryTok t = true) : isDotTok t = false := by
  cases t with
  | value v p => rfl
  | ref v p => rfl
  | special v p =>
    simp [startsPrimaryTok] at h
    rcases h with (h | h) | h <;> subst h <;> rfl

theorem extPrimOk_flat {chunks : List (List LexToken)}
    {ps : List ASTExpression}
    (hs : List.Forall₂ PrimChunk chunks ps) :
    extPrimOk (flatToks chunks) = true := by
  cases hs with
  | nil => rfl
  | cons ha hrest =>
    rename_i c p rest ps'
    cases c with
    | nil => exact absurd ha (parsePrimary_nil _ _)
    | cons t c2 =>
      have hst := parsePrimary_head_starts ha
      simp only [startsPrimaryL] at hst
      simp [flatToks, extPrimOk, headIsDot, startsPrim_not_dot hst]

theorem args_chunks :
    ∀ (chunks : List (List LexToken)) (ps : List ASTExpression) (g : Nat),
    List.Forall₂ PrimChunk chunks ps →
    5 * (flatToks chunks).length + 12 ≤ g →
    parseArgs g (flatToks chunks) = .ok (ps, []) := by
  intro chunks
  induction chunks with
  | nil =>
    intro ps g hf hg
    cases hf
    obtain ⟨g', rfl⟩ : ∃ g', g = g' + 1 := ⟨g - 1, by omega⟩
    simp [flatToks, parseArgs, startsPrimaryL]
  | cons c rest ih =>
    intro ps g hf hg
    cases hf with
    | cons ha hrest =>
      rename_i p ps'
      obtain ⟨g', rfl⟩ : ∃ g', g = g' + 1 := ⟨g - 1, by omega⟩
      simp only [flatToks] at hg ⊢
      have hcond : startsPrimaryL (c ++ flatToks rest) = true := by
        cases c with
        | nil => exact absurd ha (parsePrimary_nil _ _)
        | cons t c2 =>
          have hst := parsePrimary_head_starts ha
          simpa [startsPrimaryL] using hst
      simp only [parseArgs, hcond, if_true]
      have hext : parsePrimary (5 * c.length + 10) (c ++ flatToks rest) =
          .ok (p, flatToks rest) := by
        have := parsePrimary_ext (flatToks rest) ha
          (fun _ => extPrimOk_flat hrest)
        simpa using this
      have hlen : (c ++ flatToks rest).length =
          c.length + (flatToks rest).length := List.length_append _ _
      have hcne : c ≠ [] := fun hnil =>
        absurd (hnil ▸ ha) (parsePrimary_nil _ _)
      have hb : 0 < c.length := List.length_pos.mpr hcne
      have hmono := parsePrimary_mono
        (show 5 * c.length + 10 ≤ g' by omega) hext
      rw [hmono]
      simp only [exc_ok_bind]
      rw [ih ps' g' hrest (by omega)]
      simp only [exc_ok_bind]

theorem pipeTail_chunks :
    ∀ (chunks : List (Nat × List LexToken)) (as : List ASTExpression)
      (g : Nat),
    List.Forall₂ (fun pc a => AppChunk pc.2 a) chunks as →
    5 * (joinTail chunks).length + 7 ≤ g →
    parsePipeTail g (joinTail chunks) = .ok (as, []) := by
  intro chunks
  induction chunks with
  | nil =>
    intro as g hf hg
    cases hf
    obtain ⟨g', rfl⟩ : ∃ g', g = g' + 1 := ⟨g - 1, by omega⟩
    simp [joinTail, parsePipeTail]
  | cons pc rest ih =>
    intro as g hf hg
    obtain ⟨p, c⟩ := pc
    cases hf with
    | cons ha hrest =>
      rename_i a as'
      obtain ⟨g', rfl⟩ : ∃ g', g = g' + 1 := ⟨g - 1, by omega⟩
      simp only [joinTail, List.length_cons, List.length_append] at hg ⊢
      simp only [parsePipeTail]
      have hext : parseApplication (5 * c.length + 10) (c ++ joinTail rest) =
          .ok (a, joinTail rest) := by
        have := parseApplication_ext (joinTail rest) ha
          (fun _ => extAppOk_joinTail rest)
        simpa using this
      have hmono := parseApplication_mono
        (show 5 * c.length + 10 ≤ g' by omega) hext
      rw [hmono]
      simp only [exc_ok_bind]
      rw [ih as' g' hrest (by omega)]
      simp only [exc_ok_bind]

theorem pipeline_of_chunks {c0 : List LexToken} {a0 : ASTExpression}
    {chunks : List (Nat × List LexToken)} {as : List ASTExpression}
    (h0 : AppChunk c0 a0)
    (hs : List.Forall₂ (fun pc a => AppChunk pc.2 a) chunks as)
    (hne : chunks ≠ []) :
    parseTokens (c0 ++ joinTail chunks) = .ok (.pipeline (a0 :: as)) := by
  apply parseTokens_of_pipeline
  rw [show parseFuel (c0 ++ joinTail chunks) =
      (5 * (c0 ++ joinTail chunks).length + 9) + 1 from by
    simp [parseFuel]]
  simp only [parsePipeline]
  have hext : parseApplication (5 * c0.length + 10) (c0 ++ joinTail chunks) =
      .ok (a0, joinTail chunks) := by
    have := parseApplication_ext (joinTail chunks) h0
      (fun _ => extAppOk_joinTail chunks)
    simpa using this
  have hjlen : 0 < (joinTail chunks).length := by
    cases chunks with
    | nil => exact absurd rfl hne
    | cons pc rest => simp [joinTail]
  have hlen : (c0 ++ joinTail chunks).length =
      c0.length + (joinTail chunks).length := List.length_append _ _
  have hmono := parseApplication_mono
    (show 5 * c0.length + 10 ≤ 5 * (c0 ++ joinTail chunks).length + 9 by
      omega) hext
  rw [hmono]
  simp only [exc_ok_bind]
  rw [pipeTail_chunks chunks as _ hs (by omega)]
  simp only [exc_ok_bind]
  have hasne : as ≠ [] := by
    cases hs with
    | nil => exact absurd rfl hne
    | cons h1 h2 => simp
  cases as with
  | nil => exact absurd rfl hasne
  | cons a1 as2 => simp

theorem application_of_chunks {c0 : List LexToken} {p0 : ASTExpression}
    {chunks : List (List LexToken)} {ps : List ASTExpression}
    (h0 : PrimChunk c0 p0)
    (hs : List.Forall₂ PrimChunk chunks ps)
    (hne : chunks ≠ []) :
    parseTokens (c0 ++ flatToks chunks) = .ok (.application p0 ps) := by
  apply parseTokens_of_pipeline
  rw [show parseFuel (c0 ++ flatToks chunks) =
      ((5 * (c0 ++ flatToks chunks).length + 8) + 1) + 1 from by
    simp [parseFuel]]
  simp only [parsePipeline, parseApplication]
  have hext : parsePrimary (5 * c0.length + 10) (c0 ++ flatToks chunks) =
      .ok (p0, flatToks chunks) := by
    have := parsePrimary_ext (flatToks chunks) h0
      (fun _ => extPrimOk_flat hs)
    simpa using this
  have hflen : 0 < (flatToks chunks).length := by
    cases hs with
    | nil => exact absurd rfl hne
    | cons h1 h2 =>
      rename_i c p rest ps'
      cases c with
      | nil => exact absurd h1 (parsePrimary_nil _ _)
      | cons t c2 => simp [flatToks]
  have hlen : (c0 ++ flatToks chunks).length =
      c0.length + (flatToks chunks).length := List.length_append _ _
  have hc0 : 0 < c0.length := List.length_pos.mpr (fun hnil =>
    absurd (hnil ▸ h0) (parsePrimary_nil _ _))
  have hmono := parsePrimary_mono
    (show 5 * c0.length + 10 ≤ 5 * (c0 ++ flatToks chunks).length + 8 by
      omega) hext
  rw [hmono]
  simp only [exc_ok_bind]
  rw [args_chunks chunks ps _ hs (by omega)]
  simp only [exc_ok_bind]
  have hpsne : ps ≠ [] := by
    cases hs with
    | nil => exact absurd rfl hne
    | cons h1 h2 => simp
  cases ps with
  | nil => exact absurd rfl hpsne
  | cons p1 ps2 =>
    simp only [List.isEmpty_cons, Bool.false_eq_true, if_false]
    have htail : parsePipeTail (5 * (c0 ++ flatToks chunks).length + 8 + 1)
        ([] : List LexToken) = .ok ([], []) := by
      simp [parsePipeTail]
    rw [htail]
    simp only [exc_ok_bind]
    rfl

/-- C1: the source "sup nernd | hi there" parses to a 2-stage pipeline of two
single-argument applications — the pipe token closes the current
application's argument list, so application binds tighter than pipe and a
pipeline is never captured as an application argument without parentheses. -/
theorem pipe_terminates_application_capture :
    parse "sup nernd | hi there" = .ok (.pipeline
      [.application (.reference ["sup"]) [.reference ["nernd"]],
       .application (.reference ["hi"]) [.reference ["there"]]]) := rfl

/-- C2: successfully parsed reference expressions are single
path-based reference nodes: "somefn" yields path ["somefn"], "@" yields
["@"], "@.hello.there" yields ["@","hello","there"], and
"there.is.much.to.learn" yields one greedy five-segment reference node
rather than nested applications. -/
theorem reference_path_shape :
    parse "somefn" = .ok (.reference ["somefn"]) ∧
    parse "@" = .ok (.reference ["@"]) ∧
    parse "@.hello.there" = .ok (.reference ["@", "hello", "there"]) ∧
    parse "there.is.much.to.learn" =
      .ok (.reference ["there", "is", "much", "to", "learn"]) :=
  ⟨rfl, rfl, rfl, rfl⟩

/-- C3: every successfully parsed AST is well-formed: every pipeline node has
at least two stages, every application node has at least one argument, and
every reference node has a non-empty path, recursively at every node. -/
theorem parse_ast_wellFormed :
    ∀ (s : String) (a : ASTExpression), parse s = .ok a → astWF a = true := by
  intro s a h
  obtain ⟨ts, htok, hpt⟩ := parts_of_parse h
  exact (parserWFAll (parseFuel ts)).1 ts a [] (pipeline_of_parseTokens hpt)

/-- C3 witness: the invariant instantiated at the parse of "hello | there". -/
theorem parse_ast_wellFormed_witness :
    astWF (.pipeline [.reference ["hello"], .reference ["there"]]) = true :=
  parse_ast_wellFormed "hello | there"
    (.pipeline [.reference ["hello"], .reference ["there"]]) rfl

/-- C4: parenthetical grouping is transparent: wrapping any successfully
parsed source in parentheses parses to the same AST, arbitrary nesting
unwraps idempotently ("((((hello))))" parses identically to "hello"), and no
AST node kind representing parentheses exists — every node is a literal,
reference, application, or pipeline. -/
theorem paren_transparent :
    (∀ (s : String) (a : ASTExpression), parse s = .ok a →
      parse ("(" ++ s ++ ")") = .ok a) ∧
    parse "((((hello))))" = .ok (.reference ["hello"]) ∧
    parse "(hello)" = .ok (.reference ["hello"]) ∧
    parse "hello" = .ok (.reference ["hello"]) ∧
    (∀ a : ASTExpression, nodeKind a = "literal" ∨ nodeKind a = "reference" ∨
      nodeKind a = "application" ∨ nodeKind a = "pipeline") := by
  refine ⟨fun s a h => parse_paren h, rfl, rfl, rfl, ?_⟩
  intro a
  cases a with
  | literal v => exact Or.inl rfl
  | reference p => exact Or.inr (Or.inl rfl)
  | application fn args => exact Or.inr (Or.inr (Or.inl rfl))
  | pipeline st => exact Or.inr (Or.inr (Or.inr rfl))

/-- C4 witness: wrapping the parsed source "hello | there" in parentheses
reproduces its AST. -/
theorem paren_transparent_witness :
    parse ("(" ++ "hello | there" ++ ")") =
      .ok (.pipeline [.reference ["hello"], .reference ["there"]]) :=
  paren_transparent.1 "hello | there"
    (.pipeline [.reference ["hello"], .reference ["there"]]) rfl

/-- C5: consecutive Primaries with no intervening pipe collect greedily and
left-associatively into one application node whose function is the first
Primary and whose arguments are the rest in source order; concretely
"sup nernd hi" and "(sup) (nernd) (hi)" both parse to
Application(sup, [nernd, hi]). -/
theorem application_collects_primaries :
    (∀ (c0 : List LexToken) (p0 : ASTExpression)
      (chunks : List (List LexToken)) (ps : List ASTExpression),
      PrimChunk c0 p0 → List.Forall₂ PrimChunk chunks ps → chunks ≠ [] →
      parseTokens (c0 ++ flatToks chunks) = .ok (.application p0 ps)) ∧
    parse "sup nernd hi" = .ok (.application (.reference ["sup"])
      [.reference ["nernd"], .reference ["hi"]]) ∧
    parse "(sup) (nernd) (hi)" = .ok (.application (.reference ["sup"])
      [.reference ["nernd"], .reference ["hi"]]) :=
  ⟨fun _ _ _ _ h0 hs hne => application_of_chunks h0 hs hne, rfl, rfl⟩

/-- C5 witness: the general collection law instantiated on three
single-reference Primaries. -/
theorem application_collects_primaries_witness :
    parseTokens ([.ref "sup" 0] ++
        flatToks [[.ref "nernd" 4], [.ref "hi" 10]]) =
      .ok (.application (.reference ["sup"])
        [.reference ["nernd"], .reference ["hi"]]) :=
  application_collects_primaries.1 [.ref "sup" 0] (.reference ["sup"])
    [[.ref "nernd" 4], [.ref "hi" 10]]
    [.reference ["nernd"], .reference ["hi"]]
    rfl
    (List.Forall₂.cons rfl (List.Forall₂.cons rfl List.Forall₂.nil))
    (by simp)

/-- C6: a parenthesized pipeline used as a pipeline stage nests rather than
flattening: "hello | (there | hi) | (whatup)" parses to a 3-stage top-level
pipeline whose middle stage is itself a 2-stage pipeline. -/
theorem nested_pipeline_stage :
    parse "hello | (there | hi) | (whatup)" = .ok (.pipeline
      [.reference ["hello"],
       .pipeline [.reference ["there"], .reference ["hi"]],
       .reference ["whatup"]]) := rfl

/-- C7: pipe-separated application-level chunks parse to one pipeline node
with stages in source order, one per chunk; whitespace around the pipe is
insignificant ("hello|there" and "hello | there" parse identically), and
"hello | there | hi | whatup" yields a 4-stage pipeline in source order. -/
theorem pipeline_stages_in_order :
    (∀ (c0 : List LexToken) (a0 : ASTExpression)
      (chunks : List (Nat × List LexToken)) (as : List ASTExpression),
      AppChunk c0 a0 →
      List.Forall₂ (fun pc a => AppChunk pc.2 a) chunks as → chunks ≠ [] →
      parseTokens (c0 ++ joinTail chunks) = .ok (.pipeline (a0 :: as))) ∧
    parse "hello|there" =
      .ok (.pipeline [.reference ["hello"], .reference ["there"]]) ∧
    parse "hello | there" = parse "hello|there" ∧
    parse "hello | there | hi | whatup" = .ok (.pipeline
      [.reference ["hello"], .reference ["there"], .reference ["hi"],
       .reference ["whatup"]]) :=
  ⟨fun _ _ _ _ h0 hs hne => pipeline_of_chunks h0 hs hne, rfl, rfl, rfl⟩

/-- C7 witness: the general pipeline law instantiated on two
single-reference chunks joined by one pipe token. -/
theorem pipeline_stages_in_order_witness :
    parseTokens ([.ref "hello" 0] ++ joinTail [(5, [.ref "there" 6])]) =
      .ok (.pipeline [.reference ["hello"], .reference ["there"]]) :=
  pipeline_stages_in_order.1 [.ref "hello" 0] (.reference ["hello"])
    [(5, [.ref "there" 6])] [.reference ["there"]]
    rfl
    (List.Forall₂.cons rfl List.Forall₂.nil)
    (by simp)

/-- C8: literal sources parse to literal nodes carrying the exact valueType
and value: "1" to number 1, "\"hi\"" to the verbatim string "hi", "true" to
boolean true, "null" to null, and "[1, 2, 3]" to an array of the three
number literals in source order. -/
theorem literal_round_trip :
    parse "1" = .ok (.literal (.num 1)) ∧
    parse "\"hi\"" = .ok (.literal (.str "hi")) ∧
    parse "true" = .ok (.literal (.bool true)) ∧
    parse "false" = .ok (.literal (.bool false)) ∧
    parse "null" = .ok (.literal .null) ∧
    parse "349291" = .ok (.literal (.num 349291)) ∧
    parse "[1, 2, 3]" = .ok (.literal (.arr
      [.literal (.num 1), .literal (.num 2), .literal (.num 3)])) :=
  ⟨rfl, rfl, rfl, rfl, rfl, rfl, rfl⟩

/-- C9: parse fails, returning an error value and no AST, on empty input,
empty or unbalanced parentheticals, a pipe with a missing stage, a dangling
trailing dot after a reference path, and whenever the top-level expression
does not consume every token (leftover tokens are a parse error). -/
theorem parse_error_cases :
    (parse "").isOk = false ∧
    (parse "()").isOk = false ∧
    (parse "hello |").isOk = false ∧
    (parse "| hi").isOk = false ∧
    (parse "a.").isOk = false ∧
    (parse "(hello").isOk = false ∧
    (parse "hello)").isOk = false ∧
    (∀ (toks : List LexToken) (a : ASTExpression) (t : LexToken)
      (rest : List LexToken),
      parsePipeline (parseFuel toks) toks = .ok (a, t :: rest) →
      ∃ e, parseTokens toks = .error e) := by
  refine ⟨rfl, rfl, rfl, rfl, rfl, rfl, rfl, ?_⟩
  intro toks a t rest h
  unfold parseTokens
  rw [h]
  exact ⟨⟨"unexpected leftover tokens", t.position⟩, rfl⟩

/-- C9 witness: the leftover-token law instantiated on the token sequence of
"hello)". -/
theorem parse_error_cases_witness :
    ∃ e, parseTokens [LexToken.ref "hello" 0, LexToken.special ")" 5] =
      .error e :=
  parse_error_cases.2.2.2.2.2.2.2 [.ref "hello" 0, .special ")" 5]
    (.reference ["hello"]) (.special ")" 5) [] rfl

/-- C10: every token the lexer produces is exactly one of the three kinds of
types.ts — value, ref, or special, each carrying a numeric position — and a
value token's payload is always a scalar; composite array literals are
emitted as special-symbol and scalar tokens for the parser to assemble,
never as a single value token, as the tokenization of "[1, 2, 3]" shows. -/
theorem lexer_token_kinds :
    (∀ (s : String) (ts : List LexToken), tokenize s = .ok ts →
      ∀ t ∈ ts, (∃ v p, t = LexToken.value v p) ∨
        (∃ r p, t = LexToken.ref r p) ∨
        (∃ sp p, t = LexToken.special sp p)) ∧
    tokenize "[1, 2, 3]" = .ok
      [.special "[" 0, .value (.num 1) 1, .special "," 2,
       .value (.num 2) 4, .special "," 5, .value (.num 3) 7,
       .special "]" 8] := by
  refine ⟨?_, rfl⟩
  intro s ts h t ht
  cases t with
  | value v p => exact Or.inl ⟨v, p, rfl⟩
  | ref r p => exact Or.inr (Or.inl ⟨r, p, rfl⟩)
  | special sp p => exact Or.inr (Or.inr ⟨sp, p, rfl⟩)

/-- C10 witness: the three-kind discrimination instantiated at the first
token of "[1, 2, 3]". -/
theorem lexer_token_kinds_witness :
    (∃ v p, LexToken.special "[" 0 = LexToken.value v p) ∨
    (∃ r p, LexToken.special "[" 0 = LexToken.ref r p) ∨
    (∃ sp p, LexToken.special "[" 0 = LexToken.special sp p) :=
  lexer_token_kinds.1 "[1, 2, 3]"
    [.special "[" 0, .value (.num 1) 1, .special "," 2,
     .value (.num 2) 4, .special "," 5, .value (.num 3) 7,
     .special "]" 8] rfl (LexToken.special "[" 0) (by decide)
